import Mathlib

/-!
A verification development for a schema-driven binary message serialization
engine in the style of protocol buffers (proto2 family).  The repository's
notebook only demonstrates usage of a generated codec; the engine itself is
specified in the accompanying natural-language specification.  Every
definition below is modelled from that specification (varint codec, zigzag
mapping, wire frames, schema descriptors, message instances, and the
encoder/decoder engine), and the theorems settle the spec's testable
properties against this model.
-/

namespace PB

/-- Modelled from the spec: the error kinds of section 7 (the engine code is
not part of the repository; only a notebook calling a generated codec is). -/
inductive Err where
  | TruncatedInput
  | VarintOverflow
  | WireTypeMismatch
  | UnsupportedWireType
  | DuplicateDefinition
  | UnresolvedReference
  | TypeMismatch
  | CardinalityViolation
  | UninitializedMessage
  | LimitExceeded
  deriving DecidableEq, Repr

/-- Byte buffers are lists of byte values. -/
abbrev Bytes := List Nat

/-! ## Varint codec (spec section 4.1) -/

/-- Structural worker for the varint encoder; the fuel argument only bounds
the recursion depth and is always supplied large enough to be irrelevant. -/
def encVarAux : Nat → Nat → Bytes
  | 0, n => [n % 128]
  | fuel + 1, n =>
      if n < 128 then [n] else (n % 128 + 128) :: encVarAux fuel (n / 128)

/-- Modelled from the spec: emits 7 bits per byte, low-order first,
continuation bit set on all but the last byte. -/
def encode_varint (n : Nat) : Bytes := encVarAux (n + 1) n

/-- Core varint reader: at most `fuel` bytes may be consumed; a byte with the
continuation bit clear terminates.  Returns the value and the number of bytes
consumed. -/
def dvAux : Nat → Bytes → Except Err (Nat × Nat)
  | 0, _ => .error .VarintOverflow
  | _ + 1, [] => .error .TruncatedInput
  | fuel + 1, b :: rest =>
      if b < 128 then .ok (b, 1)
      else
        match dvAux fuel rest with
        | .ok (v, k) => .ok (b % 128 + 128 * v, k + 1)
        | .error e => .error e

/-- Modelled from the spec: fails with TruncatedInput if the buffer ends
before a terminating byte appears, and with VarintOverflow if more than 10
bytes would be consumed. -/
def decode_varint (buf : Bytes) (offset : Nat) : Except Err (Nat × Nat) :=
  dvAux 10 (buf.drop offset)

/-! ## ZigZag mapping (spec section 4.1) -/

/-- Modelled from the spec: zigzag(n) = (n <<< 1) ^^^ (n >>> 63) with an
arithmetic shift, on 64-bit signed integers. -/
def zigzag (n : Int) : Nat :=
  (Int.xor (2 * n) (Int.shiftRight n 63)).toNat

/-- Modelled from the spec: the exact inverse of the zigzag mapping. -/
def un_zigzag (u : Nat) : Int :=
  if u % 2 = 0 then (u / 2 : Nat) else -((u / 2 : Nat)) - 1

/-! ## Fixed-width little-endian codec (spec section 6) -/

/-- Little-endian encoding to a fixed number of bytes. -/
def toLE : Nat → Nat → Bytes
  | 0, _ => []
  | w + 1, n => n % 256 :: toLE w (n / 256)

/-- Little-endian decoding of a byte list. -/
def fromLE : Bytes → Nat
  | [] => 0
  | b :: rest => b % 256 + 256 * fromLE rest

/-! ## Wire values and frames (spec sections 4.2 and 6) -/

/-- Modelled from the spec: the four wire representations. -/
inductive WireVal where
  | wvarint (n : Nat)
  | w64 (n : Nat)
  | wlen (payload : Bytes)
  | w32 (n : Nat)
  deriving DecidableEq, Repr

/-- The 3-bit wire-type code of a wire value. -/
def wireTypeOfW : WireVal → Nat
  | .wvarint _ => 0
  | .w64 _ => 1
  | .wlen _ => 2
  | .w32 _ => 5

/-- A decoded tag/value pair together with the exact raw bytes it was read
from (unknown fields are re-emitted from these raw bytes verbatim). -/
structure Frame where
  number : Nat
  wire : WireVal
  raw : Bytes
  deriving DecidableEq, Repr

/-- Modelled from the spec: read the wire-type-specific body bytes that
follow a tag, returning the wire value and the number of bytes consumed.
Wire types 3 and 4 (and the undefined 6 and 7) fail with
UnsupportedWireType; running out of payload bytes fails with
TruncatedInput. -/
def readBody (wt : Nat) (rest : Bytes) : Except Err (WireVal × Nat) :=
  match wt with
  | 0 =>
    match dvAux 10 rest with
    | .error e => .error e
    | .ok (v, k2) => .ok (.wvarint v, k2)
  | 1 =>
    if rest.length < 8 then .error .TruncatedInput
    else .ok (.w64 (fromLE (rest.take 8)), 8)
  | 2 =>
    match dvAux 10 rest with
    | .error e => .error e
    | .ok (m, k2) =>
      if (rest.drop k2).length < m then .error .TruncatedInput
      else .ok (.wlen ((rest.drop k2).take m), k2 + m)
  | 5 =>
    if rest.length < 4 then .error .TruncatedInput
    else .ok (.w32 (fromLE (rest.take 4)), 4)
  | _ => .error .UnsupportedWireType

/-- Modelled from the spec: read one tag/value pair from the front of a
buffer.  A tag is varint((field_number <<< 3) ||| wire_type). -/
def readFrame (buf : Bytes) : Except Err (Frame × Nat) :=
  match dvAux 10 buf with
  | .error e => .error e
  | .ok (t, k) =>
    match readBody (t % 8) (buf.drop k) with
    | .error e => .error e
    | .ok (w, c2) => .ok (⟨t / 8, w, buf.take (k + c2)⟩, k + c2)

/-- Structural worker for the frame reader; the fuel argument only bounds the
number of frames read and is always supplied large enough to be
irrelevant (every frame consumes at least one byte). -/
def readFramesAux : Nat → Bytes → Except Err (List Frame)
  | 0, buf => if buf = [] then .ok [] else .error .TruncatedInput
  | fuel + 1, buf =>
      if buf = [] then .ok []
      else
        match readFrame buf with
        | .error e => .error e
        | .ok (f, c) =>
            match readFramesAux fuel (buf.drop c) with
            | .error e => .error e
            | .ok fs => .ok (f :: fs)

/-- Modelled from the spec: read tag/value pairs until the buffer is
exhausted. -/
def readFrames (buf : Bytes) : Except Err (List Frame) :=
  readFramesAux (buf.length + 1) buf

/-- A chunk of bytes that reads back as exactly one frame consuming the whole
chunk. -/
def SelfFrame (c : Bytes) (f : Frame) : Prop :=
  c ≠ [] ∧ readFrame c = .ok (f, c.length)

/-! ## Schema model and message instances (spec section 3) -/

/-- Modelled from the spec: cardinality of a field. -/
inductive Card where
  | required
  | optional
  | repeated
  deriving DecidableEq, Repr

/-- Modelled from the spec: a dynamically-typed field value.  A message value
carries its own field map (field number to the ordered list of values; a set
non-repeated field holds a singleton list) together with its preserved
unknown-field raw chunks. -/
inductive Value where
  | vint (n : Int)
  | vuint (n : Nat)
  | vbool (b : Bool)
  | venum (n : Nat)
  | vf32 (n : Nat)
  | vf64 (n : Nat)
  | vstr (bs : List Nat)
  | vbytes (bs : List Nat)
  | vmsg (fields : List (Nat × List Value)) (unknown : List (List Nat))

mutual
/-- Modelled from the spec: a field's declared type; enum types carry their
name-to-value mapping, message types carry the nested field descriptors. -/
inductive FieldType where
  | tint32
  | tint64
  | tuint32
  | tuint64
  | tbool
  | tfloat
  | tdouble
  | tstring
  | tbytes
  | tenum (values : List (String × Nat))
  | tmsg (fields : List FieldDescriptor)

/-- Modelled from the spec: a field descriptor with number, name, type,
cardinality and optional explicit default value. -/
inductive FieldDescriptor where
  | mk (number : Nat) (name : String) (ftype : FieldType) (card : Card)
      (dflt : Option Value)
end

def FieldDescriptor.number : FieldDescriptor → Nat
  | .mk n _ _ _ _ => n

def FieldDescriptor.fname : FieldDescriptor → String
  | .mk _ s _ _ _ => s

def FieldDescriptor.ftype : FieldDescriptor → FieldType
  | .mk _ _ t _ _ => t

def FieldDescriptor.card : FieldDescriptor → Card
  | .mk _ _ _ c _ => c

def FieldDescriptor.dflt : FieldDescriptor → Option Value
  | .mk _ _ _ _ d => d

/-- Modelled from the spec: a message instance is a mapping from field number
to accumulated values plus preserved unknown-field raw chunks. -/
structure MessageInstance where
  fields : List (Nat × List Value)
  unknown : List (List Nat)

/-- The empty instance a decode starts from. -/
def emptyInstance : MessageInstance := ⟨[], []⟩

/-- The wire type the engine selects for a declared field type. -/
def wireOf : FieldType → Nat
  | .tint32 | .tint64 | .tuint32 | .tuint64 | .tbool | .tenum _ => 0
  | .tdouble => 1
  | .tstring | .tbytes | .tmsg _ => 2
  | .tfloat => 5

/-- Look up the descriptor for a field number. -/
def findFd (fs : List FieldDescriptor) (n : Nat) : Option FieldDescriptor :=
  fs.find? (fun fd => fd.number == n)

/-- Look up the value list stored for a field number. -/
def lookupEntry (l : List (Nat × List Value)) (n : Nat) : Option (List Value) :=
  (l.find? (fun p => p.1 == n)).map (fun p => p.2)

/-- Store a value list for a field number, replacing any previous entry. -/
def setEntry : List (Nat × List Value) → Nat → List Value → List (Nat × List Value)
  | [], n, vs => [(n, vs)]
  | (m, ws) :: t, n, vs =>
      if m = n then (n, vs) :: t else (m, ws) :: setEntry t n vs

/-! ## Field access with default resolution (spec section 4.4) -/

/-- The result of a field access: a single value, the no-value marker for
unset message-typed fields, or a repeated field's ordered sequence. -/
inductive GetResult where
  | one (v : Value)
  | noValue
  | many (vs : List Value)

/-- Modelled from the spec: the type's zero value — 0 / 0.0 / false / empty
string / empty bytes / first declared enum value / no-value for message
types. -/
def zeroOf : FieldType → GetResult
  | .tint32 | .tint64 => .one (.vint 0)
  | .tuint32 | .tuint64 => .one (.vuint 0)
  | .tbool => .one (.vbool false)
  | .tfloat => .one (.vf32 0)
  | .tdouble => .one (.vf64 0)
  | .tstring => .one (.vstr [])
  | .tbytes => .one (.vbytes [])
  | .tenum vals =>
      match vals with
      | [] => .noValue
      | (_, n) :: _ => .one (.venum n)
  | .tmsg _ => .noValue

/-- Modelled from the spec: the default for a never-set field — the declared
explicit default if present, else the type's zero value. -/
def defaultOf (fd : FieldDescriptor) : GetResult :=
  match fd.dflt with
  | some v => .one v
  | none => zeroOf fd.ftype

/-- Modelled from the spec: get(field_number) returns the explicitly set
value, the default for never-set non-repeated fields, and the accumulated
(possibly empty, never null) sequence for repeated fields. -/
def get (fs : List FieldDescriptor) (inst : MessageInstance) (n : Nat) :
    Option GetResult :=
  match findFd fs n with
  | none => none
  | some fd =>
      if fd.card == Card.repeated then
        some (.many ((lookupEntry inst.fields n).getD []))
      else
        match (lookupEntry inst.fields n).bind List.head? with
        | some v => some (.one v)
        | none => some (defaultOf fd)

/-! ## Encoder (spec section 4.5) -/

/-- Encode the frames of one field entry: one tag+value pair per element
(repeated fields are not packed). -/
def encodeEntryWith (ev : FieldType → Value → Except Err Bytes)
    (fd : FieldDescriptor) : List Value → Except Err Bytes
  | [] => .ok []
  | v :: vs =>
      match ev fd.ftype v with
      | .error e => .error e
      | .ok pl =>
          match encodeEntryWith ev fd vs with
          | .error e => .error e
          | .ok rest => .ok (encode_varint (fd.number * 8 + wireOf fd.ftype) ++ pl ++ rest)

/-- Encode the field groups in descriptor-list order, then re-emit the
preserved unknown fields verbatim. -/
def encodeGroupsWith (ev : FieldType → Value → Except Err Bytes) :
    List FieldDescriptor → MessageInstance → Except Err Bytes
  | [], inst => .ok inst.unknown.flatten
  | fd :: rest, inst =>
      match encodeEntryWith ev fd ((lookupEntry inst.fields fd.number).getD []) with
      | .error e => .error e
      | .ok head =>
          match encodeGroupsWith ev rest inst with
          | .error e => .error e
          | .ok tail => .ok (head ++ tail)

/-- Field order used by the encoder: ascending field-number order. -/
def fdLe (a b : FieldDescriptor) : Prop := a.number ≤ b.number

instance : DecidableRel fdLe := fun a b => Nat.decLe a.number b.number

instance : IsTotal FieldDescriptor fdLe := ⟨fun a b => Nat.le_total a.number b.number⟩

instance : IsTrans FieldDescriptor fdLe := ⟨fun _ _ _ h1 h2 => Nat.le_trans h1 h2⟩

def sortFields (fs : List FieldDescriptor) : List FieldDescriptor :=
  List.insertionSort fdLe fs

/-- Modelled from the spec: encode one value according to its declared field
type (int32/int64 zigzag-varint, uint/bool/enum varint, float/double fixed,
string/bytes/message length-delimited); nesting beyond the depth budget
fails with LimitExceeded. -/
def encodeValue : Nat → FieldType → Value → Except Err Bytes
  | _, .tint32, .vint n => .ok (encode_varint (zigzag n))
  | _, .tint64, .vint n => .ok (encode_varint (zigzag n))
  | _, .tuint32, .vuint n => .ok (encode_varint n)
  | _, .tuint64, .vuint n => .ok (encode_varint n)
  | _, .tbool, .vbool b => .ok (encode_varint (if b then 1 else 0))
  | _, .tenum _, .venum n => .ok (encode_varint n)
  | _, .tfloat, .vf32 n => .ok (toLE 4 n)
  | _, .tdouble, .vf64 n => .ok (toLE 8 n)
  | _, .tstring, .vstr bs => .ok (encode_varint bs.length ++ bs)
  | _, .tbytes, .vbytes bs => .ok (encode_varint bs.length ++ bs)
  | 0, .tmsg _, .vmsg _ _ => .error .LimitExceeded
  | d + 1, .tmsg innerFs, .vmsg f u =>
      match encodeGroupsWith (fun t v => encodeValue d t v) (sortFields innerFs) ⟨f, u⟩ with
      | .error e => .error e
      | .ok body => .ok (encode_varint body.length ++ body)
  | _, _, _ => .error .TypeMismatch

/-- Emit the known fields in ascending field-number order followed by the
preserved unknown fields. -/
def encodeFields (d : Nat) (fs : List FieldDescriptor) (inst : MessageInstance) :
    Except Err Bytes :=
  encodeGroupsWith (fun t v => encodeValue d t v) (sortFields fs) inst

/-! ## Required-field validation (spec section 4.4, is_initialized) -/

def isInitValsWith (iv : FieldType → Value → Except Err Bool) (t : FieldType) :
    List Value → Except Err Bool
  | [] => .ok true
  | v :: vs =>
      match iv t v with
      | .error e => .error e
      | .ok b => if b then isInitValsWith iv t vs else .ok false

def isInitFieldsWith (iv : FieldType → Value → Except Err Bool) :
    List FieldDescriptor → MessageInstance → Except Err Bool
  | [], _ => .ok true
  | fd :: rest, inst =>
      if (fd.card == Card.required)
          && ((lookupEntry inst.fields fd.number).getD []).isEmpty then .ok false
      else
        match isInitValsWith iv fd.ftype ((lookupEntry inst.fields fd.number).getD []) with
        | .error e => .error e
        | .ok b => if b then isInitFieldsWith iv rest inst else .ok false

/-- Modelled from the spec: is_initialized() is recursively true iff every
required field at this level and inside every set nested message value has an
explicit value; recursion beyond the depth budget fails with
LimitExceeded. -/
def isInit : Nat → List FieldDescriptor → MessageInstance → Except Err Bool
  | 0, _, _ => .error .LimitExceeded
  | d + 1, fs, inst =>
      isInitFieldsWith
        (fun t v =>
          match t, v with
          | .tmsg innerFs, .vmsg f u => isInit d innerFs ⟨f, u⟩
          | _, _ => .ok true)
        fs inst

/-- Modelled from the spec: encode(instance) fails with UninitializedMessage
if is_initialized() is false; validation precedes any emission. -/
def encodeMsg (d : Nat) (fs : List FieldDescriptor) (inst : MessageInstance) :
    Except Err Bytes :=
  match isInit d fs inst with
  | .error e => .error e
  | .ok b => if b then encodeFields d fs inst else .error .UninitializedMessage

/-! ## Decoder (spec section 4.5) -/

/-- Modelled from the spec: interpret a wire value for a known field
according to the field's declared type.  Unknown enum integer values are
accepted and stored as-is. -/
def decodeWireWith (dm : List FieldDescriptor → Bytes → Except Err MessageInstance)
    (t : FieldType) (w : WireVal) : Except Err Value :=
  match t, w with
  | .tint32, .wvarint n => .ok (.vint (un_zigzag n))
  | .tint64, .wvarint n => .ok (.vint (un_zigzag n))
  | .tuint32, .wvarint n => .ok (.vuint n)
  | .tuint64, .wvarint n => .ok (.vuint n)
  | .tbool, .wvarint n => .ok (.vbool (n != 0))
  | .tenum _, .wvarint n => .ok (.venum n)
  | .tfloat, .w32 n => .ok (.vf32 n)
  | .tdouble, .w64 n => .ok (.vf64 n)
  | .tstring, .wlen bs => .ok (.vstr bs)
  | .tbytes, .wlen bs => .ok (.vbytes bs)
  | .tmsg innerFs, .wlen bs =>
      match dm innerFs bs with
      | .error e => .error e
      | .ok m => .ok (.vmsg m.fields m.unknown)
  | _, _ => .error .WireTypeMismatch

/-- Modelled from the spec: apply one decoded frame to the instance under
construction.  Unknown field numbers are preserved as raw chunks; for known
fields a repeated cardinality appends and otherwise the last value wins; a
wire-type mismatch on a known field fails in strict mode and is preserved as
unknown data in the lenient default. -/
def applyFrameWith (dm : List FieldDescriptor → Bytes → Except Err MessageInstance)
    (strict : Bool) (fs : List FieldDescriptor) (inst : MessageInstance)
    (f : Frame) : Except Err MessageInstance :=
  match findFd fs f.number with
  | none => .ok ⟨inst.fields, inst.unknown ++ [f.raw]⟩
  | some fd =>
      if wireTypeOfW f.wire = wireOf fd.ftype then
        match decodeWireWith dm fd.ftype f.wire with
        | .error e => .error e
        | .ok v =>
            if fd.card == Card.repeated then
              .ok ⟨setEntry inst.fields fd.number
                    (((lookupEntry inst.fields fd.number).getD []) ++ [v]),
                  inst.unknown⟩
            else .ok ⟨setEntry inst.fields fd.number [v], inst.unknown⟩
      else if strict then .error .WireTypeMismatch
      else .ok ⟨inst.fields, inst.unknown ++ [f.raw]⟩

def applyFramesWith (dm : List FieldDescriptor → Bytes → Except Err MessageInstance)
    (strict : Bool) (fs : List FieldDescriptor) :
    MessageInstance → List Frame → Except Err MessageInstance
  | inst, [] => .ok inst
  | inst, f :: rest =>
      match applyFrameWith dm strict fs inst f with
      | .error e => .error e
      | .ok i2 => applyFramesWith dm strict fs i2 rest

/-- Modelled from the spec: decode(bytes, descriptor) reads tag/value pairs
until the buffer is exhausted and applies each to an initially empty
instance; nesting beyond the depth budget fails with LimitExceeded. -/
def decodeMsg : Nat → Bool → List FieldDescriptor → Bytes → Except Err MessageInstance
  | 0, _, _, _ => .error .LimitExceeded
  | d + 1, strict, fs, buf =>
      match readFrames buf with
      | .error e => .error e
      | .ok frames =>
          applyFramesWith (fun fs2 bs => decodeMsg d strict fs2 bs) strict fs
            emptyInstance frames

/-! ## Validity of schemas and well-typedness of instances -/

def distinctNumbers : List FieldDescriptor → Bool
  | [] => true
  | fd :: rest => rest.all (fun fd2 => fd2.number != fd.number) && distinctNumbers rest

def validTypeWith (vf : List FieldDescriptor → Bool) : FieldType → Bool
  | .tmsg innerFs => vf innerFs
  | .tenum vals => !vals.isEmpty
  | _ => true

/-- Modelled from the spec: schema validity — field numbers unique, positive,
below 2^29 and outside the reserved 19000-19999 range, recursively for
nested message descriptors (bounded by the depth budget). -/
def validS : Nat → List FieldDescriptor → Bool
  | 0, _ => false
  | d + 1, fs =>
      distinctNumbers fs
        && fs.all (fun fd =>
            decide (0 < fd.number) && decide (fd.number < 2 ^ 29)
              && !(decide (19000 ≤ fd.number) && decide (fd.number ≤ 19999))
              && validTypeWith (fun fs2 => validS d fs2) fd.ftype)

def distinctKeys : List (Nat × List Value) → Bool
  | [] => true
  | (n, _) :: rest => rest.all (fun p => p.1 != n) && distinctKeys rest

/-- Preserved unknown chunks are well-formed: each chunk reads back as one
whole frame whose field number is absent from the schema. -/
def unknownOK (fs : List FieldDescriptor) (chunks : List (List Nat)) : Bool :=
  chunks.all (fun c =>
    match readFrame c with
    | .ok (f, used) => (used == c.length) && (findFd fs f.number).isNone
    | .error _ => false)

def wtEntriesWith (wv : FieldType → Value → Bool) (fs : List FieldDescriptor) :
    List (Nat × List Value) → Bool
  | [] => true
  | (n, vs) :: rest =>
      match findFd fs n with
      | none => false
      | some fd =>
          (fd.card == Card.repeated || decide (vs.length ≤ 1))
            && vs.all (fun v => wv fd.ftype v)
            && wtEntriesWith wv fs rest

/-- Well-typedness of a value against a declared field type, with numeric
range bounds, byte-valued string/bytes payloads, and recursively well-typed
nested message values (bounded by the depth budget). -/
def wtValue : Nat → FieldType → Value → Bool
  | _, .tint32, .vint n => decide (-(2 ^ 31 : Int) ≤ n ∧ n < 2 ^ 31)
  | _, .tint64, .vint n => decide (-(2 ^ 63 : Int) ≤ n ∧ n < 2 ^ 63)
  | _, .tuint32, .vuint n => decide (n < 2 ^ 32)
  | _, .tuint64, .vuint n => decide (n < 2 ^ 64)
  | _, .tbool, .vbool _ => true
  | _, .tenum _, .venum n => decide (n < 2 ^ 64)
  | _, .tfloat, .vf32 n => decide (n < 2 ^ 32)
  | _, .tdouble, .vf64 n => decide (n < 2 ^ 64)
  | _, .tstring, .vstr bs => bs.all (fun b => decide (b < 256))
  | _, .tbytes, .vbytes bs => bs.all (fun b => decide (b < 256))
  | 0, .tmsg _, .vmsg _ _ => false
  | d + 1, .tmsg innerFs, .vmsg f u =>
      wtEntriesWith (fun t v => wtValue d t v) innerFs f
        && distinctKeys f && unknownOK innerFs u
  | _, _, _ => false

/-- Well-typedness of an instance against a schema. -/
def wtMsg (d : Nat) (fs : List FieldDescriptor) (inst : MessageInstance) : Bool :=
  wtEntriesWith (fun t v => wtValue d t v) fs inst.fields
    && distinctKeys inst.fields && unknownOK fs inst.unknown

/-! ## Observational equality on the fields known to a schema -/

def scalarEqV : Value → Value → Bool
  | .vint a, .vint b => a == b
  | .vuint a, .vuint b => a == b
  | .vbool a, .vbool b => a == b
  | .venum a, .venum b => a == b
  | .vf32 a, .vf32 b => a == b
  | .vf64 a, .vf64 b => a == b
  | .vstr a, .vstr b => a == b
  | .vbytes a, .vbytes b => a == b
  | _, _ => false

def obsEqListWith (oe : Value → Value → Bool) : List Value → List Value → Bool
  | [], [] => true
  | x :: xs, y :: ys => oe x y && obsEqListWith oe xs ys
  | _, _ => false

def obsEqMsgWith (oev : FieldType → Value → Value → Bool)
    (fs : List FieldDescriptor) (a b : MessageInstance) : Bool :=
  fs.all (fun fd =>
    obsEqListWith (fun x y => oev fd.ftype x y)
      ((lookupEntry a.fields fd.number).getD [])
      ((lookupEntry b.fields fd.number).getD []))

/-- Observational equality of two values at a declared type: scalars compare
componentwise, nested message values compare field-wise on the fields known
to the nested schema with unknown chunks compared byte-identically. -/
def obsEqValue : Nat → FieldType → Value → Value → Bool
  | d + 1, .tmsg innerFs, .vmsg fA uA, .vmsg fB uB =>
      obsEqMsgWith (fun t x y => obsEqValue d t x y) innerFs ⟨fA, uA⟩ ⟨fB, uB⟩
        && (uA == uB)
  | _, .tmsg _, _, _ => false
  | _, _, x, y => scalarEqV x y

/-- Observational (field-wise) equality of two instances on the fields known
to the schema. -/
def obsEqMsg (d : Nat) (fs : List FieldDescriptor) (a b : MessageInstance) : Bool :=
  obsEqMsgWith (fun t x y => obsEqValue d t x y) fs a b

/-! ## The notebook's address-book schema (src/protobuf_demo.ipynb) -/

/-- The PhoneType enum of the notebook: MOBILE = 0, HOME = 1, WORK = 2; the
first declared value MOBILE is the implicit default, HOME the declared
explicit default of the type field. -/
def phoneTypeEnum : List (String × Nat) := [("MOBILE", 0), ("HOME", 1), ("WORK", 2)]

/-- The PhoneNumber message: required string number = 1; optional PhoneType
type = 2 with declared default HOME. -/
def phoneFields : List FieldDescriptor :=
  [.mk 1 "number" .tstring .required none,
   .mk 2 "type" (.tenum phoneTypeEnum) .optional (some (.venum 1))]

/-- The Person message: required string name = 1; required int32 id = 2;
optional string email = 3; repeated PhoneNumber phones = 4. -/
def personFields : List FieldDescriptor :=
  [.mk 1 "name" .tstring .required none,
   .mk 2 "id" .tint32 .required none,
   .mk 3 "email" .tstring .optional none,
   .mk 4 "phones" (.tmsg phoneFields) .repeated none]

/-- ASCII bytes of the string RABBAH Mahmoud used in the notebook. -/
def nameBytes : List Nat := [82, 65, 66, 66, 65, 72, 32, 77, 97, 104, 109, 111, 117, 100]

/-- ASCII bytes of the notebook's email address. -/
def emailBytes : List Nat :=
  [109, 114, 97, 98, 98, 97, 104, 64, 103, 109, 97, 105, 108, 46, 99, 111, 109]

/-- ASCII bytes of the phone number 555-4321. -/
def phoneBytes : List Nat := [53, 53, 53, 45, 52, 51, 50, 49]

/-- The phone entry of the notebook, with type explicitly set to HOME — the
value that equals the declared default. -/
def phoneInst : Value := .vmsg [(1, [.vstr phoneBytes]), (2, [.venum 1])] []

/-- The person built in the notebook. -/
def personInst : MessageInstance :=
  ⟨[(1, [.vstr nameBytes]), (2, [.vint 1234]), (3, [.vstr emailBytes]),
    (4, [phoneInst])], []⟩

/-! ## Round-trip machinery: relating encoded wire values to field values -/

/-- The wire value the encoder produces for a given typed field value. -/
def WireMatches : Nat → FieldType → Value → WireVal → Prop
  | _, .tint32, .vint n, w => w = .wvarint (zigzag n)
  | _, .tint64, .vint n, w => w = .wvarint (zigzag n)
  | _, .tuint32, .vuint n, w => w = .wvarint n
  | _, .tuint64, .vuint n, w => w = .wvarint n
  | _, .tbool, .vbool b, w => w = .wvarint (if b then 1 else 0)
  | _, .tenum _, .venum n, w => w = .wvarint n
  | _, .tfloat, .vf32 n, w => w = .w32 n
  | _, .tdouble, .vf64 n, w => w = .w64 n
  | _, .tstring, .vstr bs, w => w = .wlen bs
  | _, .tbytes, .vbytes bs, w => w = .wlen bs
  | d, .tmsg innerFs, .vmsg f u, w =>
      ∃ d0 body, d = d0 + 1 ∧ w = .wlen body ∧
        encodeFields d0 innerFs ⟨f, u⟩ = .ok body
  | _, _, _, _ => False

/-- The round-trip property at recursion depth d: encoding a well-typed
instance of a valid schema and decoding the output yields an instance that is
field-wise observationally equal with unknown chunks preserved. -/
def RT (d : Nat) : Prop :=
  ∀ (strict : Bool) (fs : List FieldDescriptor) (inst : MessageInstance) (out : Bytes),
    validS (d + 1) fs = true → wtMsg d fs inst = true →
    encodeFields d fs inst = .ok out → out.length < 2 ^ 64 →
    ∃ inst2, decodeMsg (d + 1) strict fs out = .ok inst2 ∧
      obsEqMsg d fs inst inst2 = true ∧ inst2.unknown = inst.unknown

/-- The per-frame relation between a source value and the frame decoded from
the encoder's output: same field number, matching wire type, and a decoded
value observationally equal to the source value. -/
def FrameDec (d : Nat) (strict : Bool) (fd : FieldDescriptor)
    (v : Value) (fr : Frame) : Prop :=
  fr.number = fd.number ∧ wireTypeOfW fr.wire = wireOf fd.ftype ∧
    ∃ v2, decodeWireWith (fun fs2 bs => decodeMsg d strict fs2 bs) fd.ftype fr.wire =
        .ok v2 ∧ obsEqValue d fd.ftype v v2 = true

/-- A one-field schema used to witness unknown-field preservation. -/
def demoFields : List FieldDescriptor := [.mk 1 "a" .tuint32 .optional none]

/-- The wire bytes the modelled encoder produces for the notebook's person
(with zigzag-encoded int32 id as the spec prescribes). -/
def personWire : Bytes :=
  [10, 14, 82, 65, 66, 66, 65, 72, 32, 77, 97, 104, 109, 111, 117, 100,
   16, 164, 19, 26, 17, 109, 114, 97, 98, 98, 97, 104, 64, 103, 109, 97,
   105, 108, 46, 99, 111, 109, 34, 12, 10, 8, 53, 53, 53, 45, 52, 51, 50,
   49, 16, 1]

/-! ## Theorems -/

theorem encVarAux_irrel :
    ∀ (f1 : Nat), ∀ (f2 n : Nat), n < f1 → n < f2 → encVarAux f1 n = encVarAux f2 n := by
  intro f1
  induction f1 with
  | zero => intro f2 n h1 _; omega
  | succ f1 ih =>
      intro f2 n h1 h2
      cases f2 with
      | zero => omega
      | succ f2 =>
          by_cases hlt : n < 128
          · simp [encVarAux, hlt]
          · simp only [encVarAux, hlt, if_false]
            have hdiv : n / 128 < n := Nat.div_lt_self (by omega) (by omega)
            rw [ih f2 (n / 128) (by omega) (by omega)]

theorem encVarAux_eq_encode (f m : Nat) (h : m < f) :
    encVarAux f m = encode_varint m :=
  encVarAux_irrel f (m + 1) m h (by omega)

/-- The defining recurrence of the varint encoder. -/
theorem encode_varint_unfold (n : Nat) :
    encode_varint n = if n < 128 then [n] else (n % 128 + 128) :: encode_varint (n / 128) := by
  calc encode_varint n = encVarAux (n + 1) n := rfl
  _ = if n < 128 then [n] else (n % 128 + 128) :: encVarAux n (n / 128) := by
        simp only [encVarAux]
  _ = if n < 128 then [n] else (n % 128 + 128) :: encode_varint (n / 128) := by
        by_cases hlt : n < 128
        · simp [hlt]
        · simp only [hlt, if_false]
          have hdiv : n / 128 < n := Nat.div_lt_self (by omega) (by omega)
          rw [encVarAux_eq_encode n (n / 128) (by omega)]

/-! ## Basic varint lemmas -/

theorem encode_varint_nonempty (n : Nat) : encode_varint n ≠ [] := by
  rw [encode_varint_unfold]
  split <;> simp

theorem encode_varint_length_le :
    ∀ (k n : Nat), 1 ≤ k → n < 128 ^ k → (encode_varint n).length ≤ k := by
  intro k
  induction k with
  | zero => intro n h _; omega
  | succ k ih =>
      intro n _ hn
      by_cases hlt : n < 128
      · have he : encode_varint n = [n] := by rw [encode_varint_unfold, if_pos hlt]
        simp [he]
      · have he : encode_varint n = (n % 128 + 128) :: encode_varint (n / 128) := by
          rw [encode_varint_unfold, if_neg hlt]
        have hk : 1 ≤ k := by
          rcases Nat.eq_zero_or_pos k with h0 | h1
          · subst h0; simp at hn; omega
          · exact h1
        have hdiv : n / 128 < 128 ^ k := by
          apply Nat.div_lt_of_lt_mul
          have hp : (128 : Nat) ^ (k + 1) = 128 ^ k * 128 := pow_succ 128 k
          omega
        have := ih (n / 128) hk hdiv
        simp only [he, List.length_cons]
        omega

theorem dvAux_encode :
    ∀ (fuel n : Nat) (rest : Bytes), (encode_varint n).length ≤ fuel →
      dvAux fuel (encode_varint n ++ rest) = .ok (n, (encode_varint n).length) := by
  intro fuel
  induction fuel with
  | zero =>
      intro n rest h
      exfalso
      have hne := encode_varint_nonempty n
      cases hn : encode_varint n with
      | nil => exact hne hn
      | cons b t => rw [hn] at h; simp at h
  | succ fuel ih =>
      intro n rest h
      by_cases hlt : n < 128
      · have he : encode_varint n = [n] := by rw [encode_varint_unfold, if_pos hlt]
        rw [he]
        simp [dvAux, hlt]
      · have he : encode_varint n = (n % 128 + 128) :: encode_varint (n / 128) := by
          rw [encode_varint_unfold, if_neg hlt]
        rw [he] at h ⊢
        simp only [List.cons_append, List.length_cons] at h ⊢
        have hb : ¬ (n % 128 + 128 < 128) := by omega
        simp only [dvAux, hb, if_false]
        rw [ih (n / 128) rest (by omega)]
        have hmod : (n % 128 + 128) % 128 = n % 128 := by omega
        simp only [hmod]
        have hsum : n % 128 + 128 * (n / 128) = n := by
          have := Nat.mod_add_div n 128
          omega
        rw [hsum]

/-- Varints emitted for 64-bit values are at most 10 bytes long. -/
theorem encode_varint_length_le_ten (n : Nat) (h : n < 2 ^ 70) :
    (encode_varint n).length ≤ 10 := by
  apply encode_varint_length_le 10 n (by omega)
  have : (128 : Nat) ^ 10 = 2 ^ 70 := by norm_num
  omega

/-- Appending extra bytes after the bytes a successful varint read consumed
does not change the result. -/
theorem dvAux_append :
    ∀ (fuel : Nat) (buf : Bytes) (v k : Nat), dvAux fuel buf = .ok (v, k) →
      ∀ rest, dvAux fuel (buf ++ rest) = .ok (v, k) := by
  intro fuel
  induction fuel with
  | zero => intro buf v k h; simp [dvAux] at h
  | succ fuel ih =>
      intro buf v k h rest
      cases buf with
      | nil => simp [dvAux] at h
      | cons b t =>
          simp only [dvAux] at h
          simp only [List.cons_append, dvAux]
          by_cases hb : b < 128
          · simp only [hb, if_true] at h ⊢
            exact h
          · simp only [hb, if_false] at h ⊢
            cases ht : dvAux fuel t with
            | error e => rw [ht] at h; simp at h
            | ok p =>
                obtain ⟨v0, k0⟩ := p
                rw [ht] at h
                simp only [List.append_eq]
                rw [ih t v0 k0 ht rest]
                exact h

/-- A successful varint read consumes at least one and at most
min(fuel, length) bytes. -/
theorem dvAux_consumed :
    ∀ (fuel : Nat) (buf : Bytes) (v k : Nat), dvAux fuel buf = .ok (v, k) →
      1 ≤ k ∧ k ≤ fuel ∧ k ≤ buf.length := by
  intro fuel
  induction fuel with
  | zero => intro buf v k h; simp [dvAux] at h
  | succ fuel ih =>
      intro buf v k h
      cases buf with
      | nil => simp [dvAux] at h
      | cons b t =>
          simp only [dvAux] at h
          split at h
          · simp only [Except.ok.injEq, Prod.mk.injEq] at h
            simp only [List.length_cons]
            omega
          · cases ht : dvAux fuel t with
            | error e => rw [ht] at h; simp at h
            | ok p =>
                obtain ⟨v0, k0⟩ := p
                rw [ht] at h
                simp only [Except.ok.injEq, Prod.mk.injEq] at h
                have := ih t v0 k0 ht
                simp only [List.length_cons]
                omega

/-- If every available byte has the continuation bit set and fewer than
`fuel` bytes remain, the read runs off the end of the buffer. -/
theorem dvAux_truncated :
    ∀ (fuel : Nat) (buf : Bytes), buf.length < fuel →
      (∀ b ∈ buf, 128 ≤ b) → dvAux fuel buf = .error .TruncatedInput := by
  intro fuel
  induction fuel with
  | zero => intro buf h _; omega
  | succ fuel ih =>
      intro buf h hall
      cases buf with
      | nil => simp [dvAux]
      | cons b t =>
          have hb : ¬ (b < 128) := by
            have := hall b (by simp)
            omega
          simp only [dvAux, hb, if_false]
          rw [ih t (by simp at h; omega) (fun x hx => hall x (by simp [hx]))]

/-- If at least `fuel` bytes remain and the first `fuel` of them all have the
continuation bit set, the read exceeds its byte budget. -/
theorem dvAux_overflow :
    ∀ (fuel : Nat) (buf : Bytes), fuel ≤ buf.length →
      (∀ b ∈ buf.take fuel, 128 ≤ b) → dvAux fuel buf = .error .VarintOverflow := by
  intro fuel
  induction fuel with
  | zero => intro buf _ _; simp [dvAux]
  | succ fuel ih =>
      intro buf h hall
      cases buf with
      | nil => simp at h
      | cons b t =>
          have hb : ¬ (b < 128) := by
            have := hall b (by simp [List.take_succ_cons])
            omega
          simp only [dvAux, hb, if_false]
          rw [ih t (by simp at h; omega) (fun x hx => hall x (by simp [List.take_succ_cons, hx]))]

/-! ## Little-endian lemmas -/

theorem toLE_length : ∀ (w n : Nat), (toLE w n).length = w := by
  intro w
  induction w with
  | zero => intro n; rfl
  | succ w ih => intro n; simp [toLE, ih]

theorem fromLE_toLE : ∀ (w n : Nat), n < 256 ^ w → fromLE (toLE w n) = n := by
  intro w
  induction w with
  | zero =>
      intro n h
      simp [pow_zero] at h
      simp [toLE, fromLE, h]
  | succ w ih =>
      intro n h
      have hdiv : n / 256 < 256 ^ w := by
        apply Nat.div_lt_of_lt_mul
        have hp : (256 : Nat) ^ (w + 1) = 256 ^ w * 256 := pow_succ 256 w
        omega
      simp only [toLE, fromLE, ih (n / 256) hdiv]
      have := Nat.mod_add_div n 256
      omega

theorem toLE_all_lt (w n : Nat) : ∀ b ∈ toLE w n, b < 256 := by
  induction w generalizing n with
  | zero => intro b hb; simp [toLE] at hb
  | succ w ih =>
      intro b hb
      simp only [toLE, List.mem_cons] at hb
      rcases hb with h | h
      · omega
      · exact ih (n / 256) b h

/-! ## ZigZag lemmas -/

theorem zigzag_eq (n : Int) (hlo : -(2 ^ 63) ≤ n) (hhi : n < 2 ^ 63) :
    zigzag n = (if 0 ≤ n then 2 * n else -2 * n - 1).toNat := by
  unfold zigzag
  match n with
  | Int.ofNat m =>
      have hon : (Int.ofNat m : Int) = (m : Int) := rfl
      have hm : m < 2 ^ 63 := by
        rw [hon] at hhi
        omega
      have h1 : (2 : Int) * Int.ofNat m = Int.ofNat (2 * m) := by
        have : (Int.ofNat (2 * m) : Int) = ((2 * m : Nat) : Int) := rfl
        omega
      have h2 : Int.shiftRight (Int.ofNat m) 63 = Int.ofNat (m >>> 63) := rfl
      have h3 : m >>> 63 = 0 := by
        rw [Nat.shiftRight_eq_div_pow]
        apply Nat.div_eq_of_lt
        exact hm
      rw [h1, h2, h3]
      have h4 : Int.xor (Int.ofNat (2 * m)) (Int.ofNat 0) = Int.ofNat ((2 * m) ^^^ 0) := rfl
      rw [h4, Nat.xor_zero]
      have h5 : (0 : Int) ≤ Int.ofNat m := by rw [hon]; omega
      simp only [h5, if_true]
  | Int.negSucc m =>
      have hns : (Int.negSucc m : Int) = -((m : Int) + 1) := Int.negSucc_eq m
      have hm : m < 2 ^ 63 := by
        rw [hns] at hlo
        omega
      have h1 : (2 : Int) * Int.negSucc m = Int.negSucc (2 * m + 1) := by
        have : (Int.negSucc (2 * m + 1) : Int) = -(((2 * m + 1 : Nat)) + 1) :=
          Int.negSucc_eq (2 * m + 1)
        omega
      have h2 : Int.shiftRight (Int.negSucc m) 63 = Int.negSucc (m >>> 63) := rfl
      have h3 : m >>> 63 = 0 := by
        rw [Nat.shiftRight_eq_div_pow]
        exact Nat.div_eq_of_lt hm
      rw [h1, h2, h3]
      have h4 : Int.xor (Int.negSucc (2 * m + 1)) (Int.negSucc 0) =
          Int.ofNat ((2 * m + 1) ^^^ 0) := rfl
      rw [h4, Nat.xor_zero]
      have h5 : ¬ ((0 : Int) ≤ Int.negSucc m) := by rw [hns]; omega
      simp only [h5, if_false]
      have h6 : (Int.ofNat (2 * m + 1) : Int) = ((2 * m + 1 : Nat) : Int) := rfl
      omega

theorem un_zigzag_zigzag (n : Int) (hlo : -(2 ^ 63) ≤ n) (hhi : n < 2 ^ 63) :
    un_zigzag (zigzag n) = n := by
  rw [zigzag_eq n hlo hhi]
  unfold un_zigzag
  by_cases h : 0 ≤ n
  · simp only [h, if_true]
    have h2 : (2 * n).toNat = 2 * n.toNat := by omega
    rw [h2]
    have h3 : 2 * n.toNat % 2 = 0 := by omega
    simp only [h3, if_true]
    omega
  · simp only [h, if_false]
    have h2 : (-2 * n - 1).toNat = 2 * (-n).toNat - 1 := by omega
    have h4 : 1 ≤ (-n).toNat := by omega
    rw [h2]
    have h3 : (2 * (-n).toNat - 1) % 2 = 1 := by omega
    simp only [h3]
    norm_num
    omega

theorem zigzag_lt (n : Int) (hlo : -(2 ^ 63) ≤ n) (hhi : n < 2 ^ 63) :
    zigzag n < 2 ^ 64 := by
  rw [zigzag_eq n hlo hhi]
  split <;> omega

theorem zigzag_small (n : Int) (hlo : -64 < n) (hhi : n < 64) :
    zigzag n < 128 := by
  rw [zigzag_eq n (by omega) (by omega)]
  split <;> omega

/-! ## Claim C3: varint round trip -/

/-- C3: for every unsigned 64-bit integer n, decode_varint applied at offset 0
to encode_varint(n) returns value n, consuming exactly the emitted bytes. -/
theorem varint_roundtrip (n : Nat) (h : n < 2 ^ 64) :
    decode_varint (encode_varint n) 0 = .ok (n, (encode_varint n).length) := by
  unfold decode_varint
  rw [List.drop_zero]
  have hlen : (encode_varint n).length ≤ 10 :=
    encode_varint_length_le_ten n (by omega)
  have := dvAux_encode 10 n [] hlen
  simpa using this

/-- Witness for C3 at n = 300. -/
theorem varint_roundtrip_witness :
    (300 : Nat) < 2 ^ 64 ∧
      decode_varint (encode_varint 300) 0 = .ok (300, (encode_varint 300).length) :=
  ⟨by norm_num, varint_roundtrip 300 (by norm_num)⟩

/-! ## Claim C4: zigzag mapping -/

/-- C4: un_zigzag is the exact inverse of the zigzag mapping
zigzag(n) = (n <<< 1) ^^^ (n >>> 63) on signed 64-bit integers, and every n
with absolute value below 64 zigzag-varint-encodes to exactly one byte. -/
theorem zigzag_roundtrip (n : Int) (hlo : -(2 ^ 63) ≤ n) (hhi : n < 2 ^ 63) :
    un_zigzag (zigzag n) = n ∧
      (-64 < n → n < 64 → (encode_varint (zigzag n)).length = 1) := by
  refine ⟨un_zigzag_zigzag n hlo hhi, ?_⟩
  intro h1 h2
  have hsmall := zigzag_small n h1 h2
  have he : encode_varint (zigzag n) = [zigzag n] := by
    rw [encode_varint_unfold, if_pos hsmall]
  rw [he]
  rfl

/-- Witness for C4 at n = -33. -/
theorem zigzag_roundtrip_witness :
    un_zigzag (zigzag (-33)) = -33 ∧ (encode_varint (zigzag (-33))).length = 1 := by
  have h := zigzag_roundtrip (-33) (by norm_num) (by norm_num)
  exact ⟨h.1, h.2 (by norm_num) (by norm_num)⟩

/-! ## Claim C5: varint decoding error behavior -/

/-- C5: decode_varint fails with TruncatedInput whenever the available bytes
run out (within the 10-byte budget) before a terminating byte appears, fails
with VarintOverflow whenever more than 10 bytes would be consumed, and on
success consumes at most the available bytes (no out-of-bounds read); being a
total Lean function it never panics. -/
theorem decode_varint_errors (buf : Bytes) (offset : Nat) :
    (∀ v k, decode_varint buf offset = .ok (v, k) →
        1 ≤ k ∧ k ≤ 10 ∧ k ≤ (buf.drop offset).length) ∧
      ((buf.drop offset).length < 10 → (∀ b ∈ buf.drop offset, 128 ≤ b) →
        decode_varint buf offset = .error .TruncatedInput) ∧
      (10 ≤ (buf.drop offset).length → (∀ b ∈ (buf.drop offset).take 10, 128 ≤ b) →
        decode_varint buf offset = .error .VarintOverflow) := by
  refine ⟨?_, ?_, ?_⟩
  · intro v k h
    have := dvAux_consumed 10 _ v k h
    exact ⟨this.1, this.2.1, this.2.2⟩
  · intro h1 h2
    exact dvAux_truncated 10 _ h1 h2
  · intro h1 h2
    exact dvAux_overflow 10 _ h1 h2

/-- Witness for C5: a buffer truncated mid-varint fails with TruncatedInput. -/
theorem decode_varint_errors_witness :
    decode_varint [129, 130] 0 = .error .TruncatedInput := by
  apply (decode_varint_errors [129, 130] 0).2.1
  · decide
  · decide

/-- A successful body read consumes at most the available bytes and produces
a wire value of the requested wire type. -/
theorem readBody_consumed (wt : Nat) (rest : Bytes) (w : WireVal) (c2 : Nat)
    (h : readBody wt rest = .ok (w, c2)) :
    c2 ≤ rest.length ∧ wireTypeOfW w = wt := by
  unfold readBody at h
  split at h
  · cases h2 : dvAux 10 rest with
    | error e => rw [h2] at h; simp at h
    | ok q =>
      obtain ⟨v, k2⟩ := q
      rw [h2] at h
      have hk2 := dvAux_consumed 10 rest v k2 h2
      simp only [Except.ok.injEq, Prod.mk.injEq] at h
      obtain ⟨hw, hc⟩ := h
      subst hc
      exact ⟨by omega, by subst hw; rfl⟩
  · split at h
    · simp at h
    · rename_i hlen
      simp only [Except.ok.injEq, Prod.mk.injEq] at h
      obtain ⟨hw, hc⟩ := h
      subst hc
      exact ⟨by omega, by subst hw; rfl⟩
  · cases h2 : dvAux 10 rest with
    | error e => rw [h2] at h; simp at h
    | ok q =>
      obtain ⟨m, k2⟩ := q
      rw [h2] at h
      simp only at h
      have hk2 := dvAux_consumed 10 rest m k2 h2
      split at h
      · simp at h
      · rename_i hlen
        have hdl : (rest.drop k2).length = rest.length - k2 := by simp
        simp only [Except.ok.injEq, Prod.mk.injEq] at h
        obtain ⟨hw, hc⟩ := h
        subst hc
        exact ⟨by omega, by subst hw; rfl⟩
  · split at h
    · simp at h
    · rename_i hlen
      simp only [Except.ok.injEq, Prod.mk.injEq] at h
      obtain ⟨hw, hc⟩ := h
      subst hc
      exact ⟨by omega, by subst hw; rfl⟩
  · simp at h

/-- A successful frame read consumes between 1 and length-of-buffer bytes and
captures exactly the consumed bytes as the frame's raw bytes. -/
theorem readFrame_consumed (buf : Bytes) (f : Frame) (c : Nat)
    (h : readFrame buf = .ok (f, c)) :
    1 ≤ c ∧ c ≤ buf.length ∧ f.raw = buf.take c := by
  unfold readFrame at h
  cases h1 : dvAux 10 buf with
  | error e => rw [h1] at h; simp at h
  | ok p =>
    obtain ⟨t, k⟩ := p
    rw [h1] at h
    simp only at h
    have hk := dvAux_consumed 10 buf t k h1
    cases h2 : readBody (t % 8) (buf.drop k) with
    | error e => rw [h2] at h; simp at h
    | ok q =>
      obtain ⟨w, c2⟩ := q
      rw [h2] at h
      have hb := readBody_consumed (t % 8) (buf.drop k) w c2 h2
      have hdl : (buf.drop k).length = buf.length - k := by simp
      simp only [Except.ok.injEq, Prod.mk.injEq] at h
      obtain ⟨hf, hc⟩ := h
      subst hc
      exact ⟨by omega, by omega, by rw [← hf]⟩

theorem readFramesAux_irrel :
    ∀ (f1 : Nat), ∀ (f2 : Nat) (buf : Bytes), buf.length < f1 → buf.length < f2 →
      readFramesAux f1 buf = readFramesAux f2 buf := by
  intro f1
  induction f1 with
  | zero => intro f2 buf h1 _; omega
  | succ f1 ih =>
      intro f2 buf h1 h2
      cases f2 with
      | zero => omega
      | succ f2 =>
          by_cases hnil : buf = []
          · simp [readFramesAux, hnil]
          · simp only [readFramesAux, hnil, if_false]
            cases hf : readFrame buf with
            | error e => rfl
            | ok p =>
                obtain ⟨f, c⟩ := p
                simp only
                have hc := readFrame_consumed buf f c hf
                have hlen : (buf.drop c).length = buf.length - c := by simp
                have hne : buf.length ≠ 0 := by
                  intro h0
                  exact hnil (List.eq_nil_of_length_eq_zero h0)
                rw [ih f2 (buf.drop c) (by omega) (by omega)]

/-- The defining recurrence of the frame reader. -/
theorem readFrames_unfold (buf : Bytes) :
    readFrames buf =
      if buf = [] then .ok []
      else
        match readFrame buf with
        | .error e => .error e
        | .ok (f, c) =>
            match readFrames (buf.drop c) with
            | .error e => .error e
            | .ok fs => .ok (f :: fs) := by
  calc readFrames buf = readFramesAux (buf.length + 1) buf := rfl
  _ = if buf = [] then .ok []
      else
        match readFrame buf with
        | .error e => .error e
        | .ok (f, c) =>
            match readFramesAux buf.length (buf.drop c) with
            | .error e => .error e
            | .ok fs => .ok (f :: fs) := by
      simp only [readFramesAux]
  _ = if buf = [] then .ok []
      else
        match readFrame buf with
        | .error e => .error e
        | .ok (f, c) =>
            match readFrames (buf.drop c) with
            | .error e => .error e
            | .ok fs => .ok (f :: fs) := by
      by_cases hnil : buf = []
      · simp [hnil]
      · simp only [hnil, if_false]
        cases hf : readFrame buf with
        | error e => rfl
        | ok p =>
            obtain ⟨f, c⟩ := p
            simp only
            have hc := readFrame_consumed buf f c hf
            have hlen : (buf.drop c).length = buf.length - c := by simp
            have hne : buf.length ≠ 0 := by
              intro h0
              exact hnil (List.eq_nil_of_length_eq_zero h0)
            rw [readFramesAux_irrel buf.length ((buf.drop c).length + 1) (buf.drop c)
                  (by omega) (by omega)]
            rfl

/-! ## Parsing a concatenation of well-formed chunks -/

theorem take_app_le (a b : List Nat) :
    ∀ n, n ≤ a.length → (a ++ b).take n = a.take n := by
  induction a with
  | nil => intro n h; simp at h; simp [h]
  | cons x t ih =>
      intro n h
      cases n with
      | zero => simp
      | succ n =>
          simp only [List.cons_append, List.take_succ_cons]
          rw [ih n (by simp at h; omega)]

theorem drop_app_le (a b : List Nat) :
    ∀ n, n ≤ a.length → (a ++ b).drop n = a.drop n ++ b := by
  induction a with
  | nil => intro n h; simp at h; simp [h]
  | cons x t ih =>
      intro n h
      cases n with
      | zero => simp
      | succ n =>
          simp only [List.cons_append, List.drop_succ_cons]
          exact ih n (by simp at h; omega)

theorem readBody_append (wt : Nat) (rest ext : Bytes) (w : WireVal) (c2 : Nat)
    (h : readBody wt rest = .ok (w, c2)) :
    readBody wt (rest ++ ext) = .ok (w, c2) := by
  have hwt := (readBody_consumed wt rest w c2 h).2
  cases w with
  | wvarint v =>
      have h0 : wt = 0 := by rw [← hwt]; rfl
      subst h0
      simp only [readBody] at h ⊢
      cases h2 : dvAux 10 rest with
      | error e => rw [h2] at h; simp at h
      | ok q =>
          obtain ⟨v0, k0⟩ := q
          rw [h2] at h
          rw [dvAux_append 10 rest v0 k0 h2 ext]
          exact h
  | w64 v =>
      have h0 : wt = 1 := by rw [← hwt]; rfl
      subst h0
      simp only [readBody] at h ⊢
      split at h
      · simp at h
      · rename_i hlen
        have hge : ¬ ((rest ++ ext).length < 8) := by simp; omega
        rw [if_neg hge, take_app_le rest ext 8 (by omega)]
        exact h
  | wlen payload =>
      have h0 : wt = 2 := by rw [← hwt]; rfl
      subst h0
      simp only [readBody] at h ⊢
      cases h2 : dvAux 10 rest with
      | error e => rw [h2] at h; simp at h
      | ok q =>
          obtain ⟨m, k0⟩ := q
          rw [h2] at h
          simp only at h
          have hk0 := dvAux_consumed 10 rest m k0 h2
          split at h
          · simp at h
          · rename_i hlen
            rw [dvAux_append 10 rest m k0 h2 ext]
            simp only
            have hdl : (rest.drop k0).length = rest.length - k0 := by simp
            rw [drop_app_le rest ext k0 (by omega)]
            have hge : ¬ ((rest.drop k0 ++ ext).length < m) := by simp; omega
            rw [if_neg hge, take_app_le (rest.drop k0) ext m (by omega)]
            exact h
  | w32 v =>
      have h0 : wt = 5 := by rw [← hwt]; rfl
      subst h0
      simp only [readBody] at h ⊢
      split at h
      · simp at h
      · rename_i hlen
        have hge : ¬ ((rest ++ ext).length < 4) := by simp; omega
        rw [if_neg hge, take_app_le rest ext 4 (by omega)]
        exact h

theorem readFrame_append (buf ext : Bytes) (f : Frame) (c : Nat)
    (h : readFrame buf = .ok (f, c)) :
    readFrame (buf ++ ext) = .ok (f, c) := by
  have hcons := readFrame_consumed buf f c h
  unfold readFrame at h ⊢
  cases h1 : dvAux 10 buf with
  | error e => rw [h1] at h; simp at h
  | ok p =>
      obtain ⟨t, k⟩ := p
      rw [h1] at h
      simp only at h
      have hk := dvAux_consumed 10 buf t k h1
      rw [dvAux_append 10 buf t k h1 ext]
      simp only
      cases h2 : readBody (t % 8) (buf.drop k) with
      | error e => rw [h2] at h; simp at h
      | ok q =>
          obtain ⟨w, c2⟩ := q
          rw [h2] at h
          simp only [Except.ok.injEq, Prod.mk.injEq] at h
          have hb := readBody_consumed (t % 8) (buf.drop k) w c2 h2
          have hdl : (buf.drop k).length = buf.length - k := by simp
          rw [drop_app_le buf ext k (by omega)]
          rw [readBody_append (t % 8) (buf.drop k) ext w c2 h2]
          simp only
          rw [take_app_le buf ext (k + c2) (by omega)]
          obtain ⟨hf, hc⟩ := h
          rw [hf, hc]

theorem readFrames_nil : readFrames [] = .ok [] := by
  rw [readFrames_unfold]
  simp

theorem readFrames_chunk_cons (A B : Bytes) (f : Frame) (hA : A ≠ [])
    (h : readFrame A = .ok (f, A.length)) :
    readFrames (A ++ B) = (readFrames B).map (fun fs => f :: fs) := by
  rw [readFrames_unfold]
  have hne : ¬ (A ++ B = []) := by
    intro h0
    rcases List.append_eq_nil.mp h0 with ⟨h1, _⟩
    exact hA h1
  rw [if_neg hne]
  have hrf : readFrame (A ++ B) = .ok (f, A.length) := readFrame_append A B f A.length h
  rw [hrf]
  simp only
  rw [List.drop_left]
  cases hB : readFrames B <;> rfl

theorem readFrames_flatten_append (chunks : List Bytes) (frames : List Frame)
    (h : List.Forall₂ SelfFrame chunks frames) :
    ∀ B, readFrames (chunks.flatten ++ B) =
      (readFrames B).map (fun fs => frames ++ fs) := by
  induction h with
  | nil =>
      intro B
      simp only [List.flatten_nil, List.nil_append]
      cases hB : readFrames B <;> rfl
  | cons hcf htail ih =>
      intro B
      rename_i c f cs fs
      simp only [List.flatten_cons, List.append_assoc]
      rw [readFrames_chunk_cons c (cs.flatten ++ B) f hcf.1 hcf.2]
      rw [ih B]
      cases hB : readFrames B <;> rfl

theorem lookupEntry_setEntry_self (l : List (Nat × List Value)) (n : Nat) (vs : List Value) :
    lookupEntry (setEntry l n vs) n = some vs := by
  induction l with
  | nil => simp [setEntry, lookupEntry, List.find?]
  | cons p t ih =>
      obtain ⟨m, ws⟩ := p
      by_cases hm : m = n
      · simp [setEntry, hm, lookupEntry, List.find?]
      · simp only [setEntry, hm, if_false]
        simp only [lookupEntry, List.find?] at ih ⊢
        have : (m == n) = false := by simp [hm]
        rw [this]
        simpa using ih

theorem lookupEntry_setEntry_other (l : List (Nat × List Value)) (n m0 : Nat)
    (vs : List Value) (hne : m0 ≠ n) :
    lookupEntry (setEntry l n vs) m0 = lookupEntry l m0 := by
  induction l with
  | nil =>
      simp only [setEntry, lookupEntry, List.find?]
      have : (n == m0) = false := by simp; omega
      rw [this]
  | cons p t ih =>
      obtain ⟨m, ws⟩ := p
      by_cases hm : m = n
      · subst hm
        simp only [setEntry, if_pos rfl]
        simp only [lookupEntry, List.find?]
        have : (m == m0) = false := by simp; omega
        rw [this]
      · simp only [setEntry, hm, if_false]
        simp only [lookupEntry, List.find?] at ih ⊢
        by_cases hm0 : m = m0
        · subst hm0
          have : (m == m) = true := by simp
          rw [this]
        · have : (m == m0) = false := by simp [hm0]
          rw [this]
          simpa using ih

/-! ## Basic lookup lemmas -/

theorem findFd_number (fs : List FieldDescriptor) (n : Nat) (fd : FieldDescriptor)
    (h : findFd fs n = some fd) : fd.number = n := by
  have := List.find?_some h
  simpa using this

theorem findFd_mem (fs : List FieldDescriptor) (n : Nat) (fd : FieldDescriptor)
    (h : findFd fs n = some fd) : fd ∈ fs :=
  List.mem_of_find?_eq_some h

theorem findFd_unique (fs : List FieldDescriptor) (hd : distinctNumbers fs = true)
    (fd : FieldDescriptor) (hmem : fd ∈ fs) : findFd fs fd.number = some fd := by
  induction fs with
  | nil => simp at hmem
  | cons g rest ih =>
      simp only [distinctNumbers, Bool.and_eq_true, List.all_eq_true] at hd
      rcases List.mem_cons.mp hmem with h1 | h1
      · subst h1
        simp [findFd, List.find?]
      · have hne : fd.number ≠ g.number := by
          have := hd.1 fd h1
          simpa using this
        simp only [findFd, List.find?]
        have : (g.number == fd.number) = false := by
          simp
          omega
        rw [this]
        exact ih hd.2 h1

theorem lookupEntry_mem (l : List (Nat × List Value)) (n : Nat) (vs : List Value)
    (h : lookupEntry l n = some vs) : (n, vs) ∈ l := by
  unfold lookupEntry at h
  cases hf : l.find? (fun p => p.1 == n) with
  | none => rw [hf] at h; simp at h
  | some p =>
      rw [hf] at h
      have hp := List.find?_some hf
      have hm := List.mem_of_find?_eq_some hf
      obtain ⟨pn, pvs⟩ := p
      have hpn : pn = n := by simpa using hp
      have hv : pvs = vs := by simpa using h
      subst hpn
      subst hv
      exact hm

/-! ## Claim C9: default resolution in get -/

/-- C9: for a known optional field never explicitly set, get returns the
declared explicit default if one exists and the type's zero value otherwise
(first declared value for enums, the no-value marker for message types); for
a known repeated field, get returns the accumulated sequence, and the empty
sequence — never null — when nothing was appended. -/
theorem get_defaults (fs : List FieldDescriptor) (inst : MessageInstance)
    (n : Nat) (fd : FieldDescriptor) (hfd : findFd fs n = some fd) :
    (fd.card = Card.optional → lookupEntry inst.fields n = none →
      get fs inst n = some (match fd.dflt with
        | some v => GetResult.one v
        | none => zeroOf fd.ftype)) ∧
    (∀ ename en evals, fd.ftype = .tenum ((ename, en) :: evals) →
      zeroOf fd.ftype = .one (.venum en)) ∧
    (fd.ftype = .tbool → zeroOf fd.ftype = .one (.vbool false)) ∧
    (fd.ftype = .tstring → zeroOf fd.ftype = .one (.vstr [])) ∧
    (∀ innerFs, fd.ftype = .tmsg innerFs → zeroOf fd.ftype = .noValue) ∧
    (fd.card = Card.repeated →
      get fs inst n = some (.many ((lookupEntry inst.fields n).getD [])) ∧
      (lookupEntry inst.fields n = none → get fs inst n = some (.many []))) := by
  refine ⟨?_, ?_, ?_, ?_, ?_, ?_⟩
  · intro hopt hunset
    unfold get
    rw [hfd]
    simp only
    have hrep : (fd.card == Card.repeated) = false := by
      rw [hopt]
      rfl
    rw [hrep]
    simp only [Bool.false_eq_true, if_false, hunset, Option.none_bind]
    unfold defaultOf
    rfl
  · intro ename en evals ht
    rw [ht]
    rfl
  · intro ht; rw [ht]; rfl
  · intro ht; rw [ht]; rfl
  · intro innerFs ht; rw [ht]; rfl
  · intro hrep
    have hb : (fd.card == Card.repeated) = true := by rw [hrep]; rfl
    constructor
    · unfold get
      rw [hfd]
      simp only
      rw [hb]
      simp
    · intro hunset
      unfold get
      rw [hfd]
      simp only
      rw [hb]
      simp [hunset]

/-! ## Claim C8: repeated append and last-value-wins during decode -/

/-- C8: applying a decoded tag/value pair for a known field appends to the
accumulated sequence when the cardinality is repeated, and otherwise stores
exactly the new value regardless of what was stored before (so a later
occurrence of a non-repeated field overwrites the earlier one); other fields
and the unknown-field list are untouched. -/
theorem decode_field_semantics
    (dm : List FieldDescriptor → Bytes → Except Err MessageInstance)
    (strict : Bool) (fs : List FieldDescriptor) (inst : MessageInstance)
    (f : Frame) (fd : FieldDescriptor) (v : Value)
    (hfd : findFd fs f.number = some fd)
    (hwire : wireTypeOfW f.wire = wireOf fd.ftype)
    (hdec : decodeWireWith dm fd.ftype f.wire = .ok v) :
    ∃ inst2, applyFrameWith dm strict fs inst f = .ok inst2 ∧
      inst2.unknown = inst.unknown ∧
      (∀ m, m ≠ fd.number → lookupEntry inst2.fields m = lookupEntry inst.fields m) ∧
      (fd.card = Card.repeated →
        lookupEntry inst2.fields fd.number =
          some (((lookupEntry inst.fields fd.number).getD []) ++ [v])) ∧
      (fd.card ≠ Card.repeated →
        lookupEntry inst2.fields fd.number = some [v]) := by
  have hnum := findFd_number fs f.number fd hfd
  unfold applyFrameWith
  rw [hfd]
  simp only
  rw [if_pos hwire, hdec]
  by_cases hrep : fd.card = Card.repeated
  · have hb : (fd.card == Card.repeated) = true := by rw [hrep]; rfl
    rw [hb]
    simp only [if_true]
    refine ⟨_, rfl, rfl, ?_, ?_, ?_⟩
    · intro m hm
      exact lookupEntry_setEntry_other inst.fields fd.number m _ hm
    · intro _
      exact lookupEntry_setEntry_self inst.fields fd.number _
    · intro hc
      exact absurd hrep hc
  · have hb : (fd.card == Card.repeated) = false := by
      cases hc : fd.card <;> simp_all
    rw [hb]
    simp only [Bool.false_eq_true, if_false]
    refine ⟨_, rfl, rfl, ?_, ?_, ?_⟩
    · intro m hm
      exact lookupEntry_setEntry_other inst.fields fd.number m _ hm
    · intro hc
      exact absurd hc hrep
    · intro _
      exact lookupEntry_setEntry_self inst.fields fd.number _

/-! ## Claim C10: explicitly set default-valued enum field is emitted -/

/-- C10: encoding the notebook's person — whose phone has type explicitly set
to HOME = 1, the value that equals its declared default — emits the tag/value
bytes 0x10 0x01 for that field on the wire: explicit-set presence is
preserved rather than suppressing default-valued optional fields. -/
theorem explicit_default_enum_emitted :
    ∃ out, encodeMsg 5 personFields personInst = .ok out ∧
      List.IsInfix [16, 1] out :=
  ⟨_, rfl, by decide⟩

/-- Witness for C9 on the notebook schema: the unset optional enum field
with declared default HOME resolves to HOME, and the unset repeated phones
field resolves to the empty sequence. -/
theorem get_defaults_witness :
    get phoneFields emptyInstance 2 = some (.one (.venum 1)) ∧
      get personFields emptyInstance 4 = some (.many []) := by
  constructor
  · exact (get_defaults phoneFields emptyInstance 2
      (.mk 2 "type" (.tenum phoneTypeEnum) .optional (some (.venum 1))) rfl).1 rfl rfl
  · exact ((get_defaults personFields emptyInstance 4
      (.mk 4 "phones" (.tmsg phoneFields) .repeated none) rfl).2.2.2.2.2 rfl).2 rfl

/-! ## Error classification for initialization checking and encoding -/

theorem isInitValsWith_err (iv : FieldType → Value → Except Err Bool) (t : FieldType)
    (hiv : ∀ t2 v e, iv t2 v = .error e → e = .LimitExceeded) :
    ∀ (vs : List Value) (e : Err), isInitValsWith iv t vs = .error e →
      e = .LimitExceeded := by
  intro vs
  induction vs with
  | nil => intro e h; simp [isInitValsWith] at h
  | cons v rest ih =>
      intro e h
      unfold isInitValsWith at h
      cases hv : iv t v with
      | error e2 =>
          rw [hv] at h
          have he : e2 = e := by simpa using h
          subst he
          exact hiv t v e2 hv
      | ok b =>
          rw [hv] at h
          cases b
          · simp at h
          · simp at h
            exact ih e h

theorem isInitFieldsWith_err (iv : FieldType → Value → Except Err Bool)
    (hiv : ∀ t v e, iv t v = .error e → e = .LimitExceeded) :
    ∀ (fs : List FieldDescriptor) (inst : MessageInstance) (e : Err),
      isInitFieldsWith iv fs inst = .error e → e = .LimitExceeded := by
  intro fs
  induction fs with
  | nil => intro inst e h; simp [isInitFieldsWith] at h
  | cons fd rest ih =>
      intro inst e h
      unfold isInitFieldsWith at h
      split at h
      · simp at h
      · cases hv : isInitValsWith iv fd.ftype
            ((lookupEntry inst.fields fd.number).getD []) with
        | error e2 =>
            rw [hv] at h
            have he : e2 = e := by simpa using h
            subst he
            exact isInitValsWith_err iv fd.ftype hiv _ e2 hv
        | ok b =>
            rw [hv] at h
            cases b
            · simp at h
            · simp at h
              exact ih inst e h

theorem isInit_err :
    ∀ (d : Nat) (fs : List FieldDescriptor) (inst : MessageInstance) (e : Err),
      isInit d fs inst = .error e → e = .LimitExceeded := by
  intro d
  induction d with
  | zero =>
      intro fs inst e h
      simp [isInit] at h
      exact h.symm
  | succ d ih =>
      intro fs inst e h
      refine isInitFieldsWith_err _ ?_ fs inst e h
      intro t v e2 hh
      cases t <;> cases v <;> (try (exact ih _ _ _ hh)) <;> simp at hh

theorem encodeEntryWith_nu (ev : FieldType → Value → Except Err Bytes)
    (fd : FieldDescriptor)
    (hev : ∀ t v e, ev t v = .error e → e ≠ .UninitializedMessage) :
    ∀ (vs : List Value) (e : Err), encodeEntryWith ev fd vs = .error e →
      e ≠ .UninitializedMessage := by
  intro vs
  induction vs with
  | nil => intro e h; simp [encodeEntryWith] at h
  | cons v rest ih =>
      intro e h
      unfold encodeEntryWith at h
      cases hv : ev fd.ftype v with
      | error e2 =>
          rw [hv] at h
          have he : e2 = e := by simpa using h
          subst he
          exact hev fd.ftype v e2 hv
      | ok pl =>
          rw [hv] at h
          simp only at h
          cases hr : encodeEntryWith ev fd rest with
          | error e2 =>
              rw [hr] at h
              have he : e2 = e := by simpa using h
              subst he
              exact ih e2 hr
          | ok out2 => rw [hr] at h; simp at h

theorem encodeGroupsWith_nu (ev : FieldType → Value → Except Err Bytes)
    (hev : ∀ t v e, ev t v = .error e → e ≠ .UninitializedMessage) :
    ∀ (gs : List FieldDescriptor) (inst : MessageInstance) (e : Err),
      encodeGroupsWith ev gs inst = .error e → e ≠ .UninitializedMessage := by
  intro gs
  induction gs with
  | nil => intro inst e h; simp [encodeGroupsWith] at h
  | cons fd rest ih =>
      intro inst e h
      unfold encodeGroupsWith at h
      cases hv : encodeEntryWith ev fd ((lookupEntry inst.fields fd.number).getD []) with
      | error e2 =>
          rw [hv] at h
          have he : e2 = e := by simpa using h
          subst he
          exact encodeEntryWith_nu ev fd hev _ e2 hv
      | ok head =>
          rw [hv] at h
          simp only at h
          cases hr : encodeGroupsWith ev rest inst with
          | error e2 =>
              rw [hr] at h
              have he : e2 = e := by simpa using h
              subst he
              exact ih inst e2 hr
          | ok tail => rw [hr] at h; simp at h

theorem encodeValue_nu :
    ∀ (d : Nat) (t : FieldType) (v : Value) (e : Err),
      encodeValue d t v = .error e → e ≠ .UninitializedMessage := by
  intro d
  induction d with
  | zero =>
      intro t v e h heq
      subst heq
      cases t <;> cases v <;> simp [encodeValue] at h
  | succ d ih =>
      intro t v e h heq
      subst heq
      cases t
      case tmsg innerFs =>
          cases v
          case vmsg f u =>
              simp only [encodeValue] at h
              cases hg : encodeGroupsWith (fun t v => encodeValue d t v)
                  (sortFields innerFs) ⟨f, u⟩ with
              | error e2 =>
                  rw [hg] at h
                  have he2 : e2 = .UninitializedMessage := by simpa using h
                  exact encodeGroupsWith_nu _ (fun t v e hh => ih t v e hh)
                    (sortFields innerFs) ⟨f, u⟩ e2 hg he2
              | ok body => rw [hg] at h; simp at h
          all_goals simp [encodeValue] at h
      all_goals cases v <;> simp [encodeValue] at h

theorem encodeFields_nu (d : Nat) (fs : List FieldDescriptor)
    (inst : MessageInstance) (e : Err) (h : encodeFields d fs inst = .error e) :
    e ≠ .UninitializedMessage := by
  unfold encodeFields at h
  exact encodeGroupsWith_nu _ (fun t v e2 hh => encodeValue_nu d t v e2 hh)
    (sortFields fs) inst e h

/-! ## Success of encoding on well-typed instances -/

theorem wtEntriesWith_lookup (wv : FieldType → Value → Bool)
    (fs : List FieldDescriptor) :
    ∀ (l : List (Nat × List Value)), wtEntriesWith wv fs l = true →
      ∀ (n : Nat) (vs : List Value), (n, vs) ∈ l →
        ∃ fd, findFd fs n = some fd ∧
          ((fd.card == Card.repeated) || decide (vs.length ≤ 1)) = true ∧
          ∀ v ∈ vs, wv fd.ftype v = true := by
  intro l
  induction l with
  | nil => intro _ n vs hm; simp at hm
  | cons p rest ih =>
      intro h n vs hm
      obtain ⟨m, ws⟩ := p
      unfold wtEntriesWith at h
      cases hf : findFd fs m with
      | none => rw [hf] at h; simp at h
      | some fd =>
          rw [hf] at h
          simp only [Bool.and_eq_true] at h
          obtain ⟨⟨hcard, hvals⟩, hrest⟩ := h
          rcases List.mem_cons.mp hm with h1 | h1
          · simp only [Prod.mk.injEq] at h1
            obtain ⟨hn, hvs⟩ := h1
            subst hn
            subst hvs
            refine ⟨fd, hf, hcard, ?_⟩
            intro v hv
            exact List.all_eq_true.mp hvals v hv
          · exact ih hrest n vs h1

theorem encodeEntryWith_ok (ev : FieldType → Value → Except Err Bytes)
    (fd : FieldDescriptor) :
    ∀ (vs : List Value), (∀ v ∈ vs, ∃ bs, ev fd.ftype v = .ok bs) →
      ∃ out, encodeEntryWith ev fd vs = .ok out := by
  intro vs
  induction vs with
  | nil => intro _; exact ⟨[], rfl⟩
  | cons v rest ih =>
      intro h
      obtain ⟨pl, hpl⟩ := h v (by simp)
      obtain ⟨out2, hout2⟩ := ih (fun v2 hv2 => h v2 (by simp [hv2]))
      refine ⟨encode_varint (fd.number * 8 + wireOf fd.ftype) ++ pl ++ out2, ?_⟩
      unfold encodeEntryWith
      rw [hpl]
      simp only
      rw [hout2]

theorem encodeGroupsWith_ok (ev : FieldType → Value → Except Err Bytes) :
    ∀ (gs : List FieldDescriptor) (inst : MessageInstance),
      (∀ fd ∈ gs, ∀ v ∈ (lookupEntry inst.fields fd.number).getD [],
        ∃ bs, ev fd.ftype v = .ok bs) →
      ∃ out, encodeGroupsWith ev gs inst = .ok out := by
  intro gs
  induction gs with
  | nil => intro inst _; exact ⟨_, rfl⟩
  | cons fd rest ih =>
      intro inst h
      obtain ⟨head, hhead⟩ := encodeEntryWith_ok ev fd _ (h fd (by simp))
      obtain ⟨tail, htail⟩ := ih inst (fun fd2 hfd2 => h fd2 (by simp [hfd2]))
      refine ⟨head ++ tail, ?_⟩
      unfold encodeGroupsWith
      rw [hhead]
      simp only
      rw [htail]

theorem validS_parts (d : Nat) (fs : List FieldDescriptor)
    (h : validS (d + 1) fs = true) :
    distinctNumbers fs = true ∧
      ∀ fd ∈ fs, 0 < fd.number ∧ fd.number < 2 ^ 29 ∧
        validTypeWith (fun fs2 => validS d fs2) fd.ftype = true := by
  simp only [validS, Bool.and_eq_true, List.all_eq_true] at h
  refine ⟨h.1, ?_⟩
  intro fd hm
  have := h.2 fd hm
  simp only [Bool.and_eq_true, decide_eq_true_eq] at this
  exact ⟨this.1.1.1, this.1.1.2, this.2⟩

/-- From well-typed entries and a valid schema, the field-group encoder
succeeds, given that every well-typed value encodes successfully. -/
theorem encodeGroupsFromWt (d : Nat) (fs : List FieldDescriptor)
    (inst : MessageInstance)
    (hok : ∀ t v, wtValue d t v = true →
      validTypeWith (fun fs2 => validS d fs2) t = true →
      ∃ bs, encodeValue d t v = .ok bs)
    (hvS : validS (d + 1) fs = true)
    (hent : wtEntriesWith (fun t v => wtValue d t v) fs inst.fields = true) :
    ∃ out, encodeFields d fs inst = .ok out := by
  obtain ⟨hdn, hfds⟩ := validS_parts d fs hvS
  unfold encodeFields
  apply encodeGroupsWith_ok
  intro fd hfd v hv
  have hfd2 : fd ∈ fs := (List.mem_insertionSort fdLe).mp hfd
  cases hl : lookupEntry inst.fields fd.number with
  | none => rw [hl] at hv; simp at hv
  | some vs =>
      rw [hl] at hv
      simp only [Option.getD_some] at hv
      have hmem := lookupEntry_mem inst.fields fd.number vs hl
      obtain ⟨fd2, hfind, _, hwt⟩ :=
        wtEntriesWith_lookup (fun t v => wtValue d t v) fs inst.fields hent
          fd.number vs hmem
      have hfind2 : findFd fs fd.number = some fd := findFd_unique fs hdn fd hfd2
      have heq : fd2 = fd := by
        rw [hfind2] at hfind
        simpa using hfind.symm
      subst heq
      exact hok fd2.ftype v (hwt v hv) (hfds fd2 hfd2).2.2

theorem encodeValue_ok :
    ∀ (d : Nat) (t : FieldType) (v : Value), wtValue d t v = true →
      validTypeWith (fun fs2 => validS d fs2) t = true →
      ∃ bs, encodeValue d t v = .ok bs := by
  intro d
  induction d with
  | zero =>
      intro t v hwt _
      cases t <;> cases v <;> simp [wtValue] at hwt <;>
        exact ⟨_, rfl⟩
  | succ d ih =>
      intro t v hwt hvt
      cases t
      case tmsg innerFs =>
          cases v
          case vmsg f u =>
              simp only [wtValue, Bool.and_eq_true] at hwt
              obtain ⟨⟨hent, _⟩, _⟩ := hwt
              simp only [validTypeWith] at hvt
              obtain ⟨body, hbody⟩ :=
                encodeGroupsFromWt d innerFs ⟨f, u⟩ ih hvt hent
              refine ⟨encode_varint body.length ++ body, ?_⟩
              simp only [encodeValue]
              unfold encodeFields at hbody
              rw [hbody]
          all_goals simp [wtValue] at hwt
      all_goals cases v <;> simp [wtValue] at hwt <;>
        exact ⟨_, rfl⟩

theorem encodeFields_ok (d : Nat) (fs : List FieldDescriptor)
    (inst : MessageInstance) (hvS : validS (d + 1) fs = true)
    (hw : wtMsg d fs inst = true) : ∃ out, encodeFields d fs inst = .ok out := by
  simp only [wtMsg, Bool.and_eq_true] at hw
  exact encodeGroupsFromWt d fs inst (encodeValue_ok d) hvS hw.1.1

/-! ## Claim C6: UninitializedMessage behavior of encode -/

/-- C6: encode fails with UninitializedMessage exactly when is_initialized
reports false (the only other failures are resource-limit or typing errors,
reported as such), and succeeds whenever is_initialized reports true on a
well-typed instance of a valid schema — in particular it succeeds for the
same message once the missing required fields are set.  Validation precedes
emission by construction: encode consults is_initialized before any output
is produced, and a failing encode returns an error carrying no bytes. -/
theorem encode_uninitialized (d : Nat) (fs : List FieldDescriptor)
    (inst : MessageInstance) :
    (isInit d fs inst = .ok false →
      encodeMsg d fs inst = .error .UninitializedMessage) ∧
      (encodeMsg d fs inst = .error .UninitializedMessage →
        isInit d fs inst = .ok false) ∧
      (isInit d fs inst = .ok true → validS (d + 1) fs = true →
        wtMsg d fs inst = true → ∃ out, encodeMsg d fs inst = .ok out) := by
  refine ⟨?_, ?_, ?_⟩
  · intro h
    unfold encodeMsg
    rw [h]
    rfl
  · intro h
    unfold encodeMsg at h
    cases hi : isInit d fs inst with
    | error e =>
        rw [hi] at h
        have he : e = .UninitializedMessage := by simpa using h
        have hle := isInit_err d fs inst e hi
        rw [hle] at he
        exact absurd he (by simp)
    | ok b =>
        rw [hi] at h
        cases b
        · rfl
        · simp only [if_true] at h
          exact absurd rfl (encodeFields_nu d fs inst _ h)
  · intro hi hvS hw
    obtain ⟨out, hout⟩ := encodeFields_ok d fs inst hvS hw
    refine ⟨out, ?_⟩
    unfold encodeMsg
    rw [hi]
    simpa using hout

theorem decode_field_semantics_witness :
    ∃ inst2,
      applyFrameWith (fun _ _ => .error .LimitExceeded) false phoneFields
          ⟨[(2, [.venum 0])], []⟩ ⟨2, .wvarint 1, [16, 1]⟩ = .ok inst2 ∧
        inst2.unknown = [] ∧
        lookupEntry inst2.fields 2 = some [.venum 1] := by
  obtain ⟨inst2, h1, h2, _, _, h5⟩ :=
    decode_field_semantics (fun _ _ => .error .LimitExceeded) false phoneFields
      ⟨[(2, [.venum 0])], []⟩ ⟨2, .wvarint 1, [16, 1]⟩
      (.mk 2 "type" (.tenum phoneTypeEnum) .optional (some (.venum 1)))
      (.venum 1) rfl rfl rfl
  exact ⟨inst2, h1, h2, h5 (fun hc => Card.noConfusion hc)⟩

/-! ## Building frames from encoder output -/

theorem readBody_varint (p : Nat) (rest : Bytes) (hp : p < 2 ^ 70) :
    readBody 0 (encode_varint p ++ rest) = .ok (.wvarint p, (encode_varint p).length) := by
  unfold readBody
  rw [dvAux_encode 10 p rest (encode_varint_length_le_ten p hp)]

theorem readBody_fix64 (nn : Nat) (rest : Bytes) (hn : nn < 2 ^ 64) :
    readBody 1 (toLE 8 nn ++ rest) = .ok (.w64 nn, 8) := by
  unfold readBody
  have hlen : (toLE 8 nn).length = 8 := toLE_length 8 nn
  have hge : ¬ ((toLE 8 nn ++ rest).length < 8) := by simp [hlen]
  rw [if_neg hge]
  rw [take_app_le (toLE 8 nn) rest 8 (by omega)]
  have htk : (toLE 8 nn).take 8 = toLE 8 nn :=
    List.take_of_length_le (le_of_eq hlen)
  rw [htk, fromLE_toLE 8 nn (by norm_num; omega)]

theorem readBody_fix32 (nn : Nat) (rest : Bytes) (hn : nn < 2 ^ 32) :
    readBody 5 (toLE 4 nn ++ rest) = .ok (.w32 nn, 4) := by
  unfold readBody
  have hlen : (toLE 4 nn).length = 4 := toLE_length 4 nn
  have hge : ¬ ((toLE 4 nn ++ rest).length < 4) := by simp [hlen]
  rw [if_neg hge]
  rw [take_app_le (toLE 4 nn) rest 4 (by omega)]
  have htk : (toLE 4 nn).take 4 = toLE 4 nn :=
    List.take_of_length_le (le_of_eq hlen)
  rw [htk, fromLE_toLE 4 nn (by norm_num; omega)]

theorem readBody_len (bs rest : Bytes) (hb : bs.length < 2 ^ 70) :
    readBody 2 ((encode_varint bs.length ++ bs) ++ rest) =
      .ok (.wlen bs, (encode_varint bs.length).length + bs.length) := by
  unfold readBody
  rw [List.append_assoc]
  rw [dvAux_encode 10 bs.length (bs ++ rest) (encode_varint_length_le_ten _ hb)]
  simp only
  rw [List.drop_left' rfl]
  have hge : ¬ ((bs ++ rest).length < bs.length) := by simp
  rw [if_neg hge]
  rw [take_app_le bs rest bs.length (by omega), List.take_length]

theorem readFrame_build (n wt : Nat) (pl rest : Bytes) (w : WireVal)
    (htag : n * 8 + wt < 2 ^ 70) (hwt8 : wt < 8)
    (hbody : readBody wt (pl ++ rest) = .ok (w, pl.length)) :
    readFrame ((encode_varint (n * 8 + wt) ++ pl) ++ rest) =
      .ok (⟨n, w, encode_varint (n * 8 + wt) ++ pl⟩,
        (encode_varint (n * 8 + wt)).length + pl.length) := by
  unfold readFrame
  rw [List.append_assoc]
  rw [dvAux_encode 10 (n * 8 + wt) (pl ++ rest) (encode_varint_length_le_ten _ htag)]
  simp only
  rw [List.drop_left' rfl]
  have hmod : (n * 8 + wt) % 8 = wt := by omega
  have hdiv : (n * 8 + wt) / 8 = n := by omega
  rw [hmod, hbody]
  simp only
  rw [hdiv]
  rw [← List.append_assoc]
  have : (encode_varint (n * 8 + wt)).length + pl.length =
      (encode_varint (n * 8 + wt) ++ pl).length := by simp
  rw [this, List.take_left]

theorem len_le_flatten : ∀ (xs : List Bytes) (x : Bytes), x ∈ xs →
    x.length ≤ xs.flatten.length := by
  intro xs
  induction xs with
  | nil => intro x hx; simp at hx
  | cons y ys ih =>
      intro x hx
      rcases List.mem_cons.mp hx with h1 | h1
      · subst h1; simp
      · have := ih x h1
        simp only [List.flatten_cons, List.length_append]
        omega

theorem applyFramesWith_append
    (dm : List FieldDescriptor → Bytes → Except Err MessageInstance)
    (strict : Bool) (fs : List FieldDescriptor) :
    ∀ (F1 F2 : List Frame) (inst : MessageInstance),
      applyFramesWith dm strict fs inst (F1 ++ F2) =
        match applyFramesWith dm strict fs inst F1 with
        | .error e => .error e
        | .ok i2 => applyFramesWith dm strict fs i2 F2 := by
  intro F1
  induction F1 with
  | nil => intro F2 inst; simp [applyFramesWith]
  | cons f rest ih =>
      intro F2 inst
      simp only [List.cons_append, applyFramesWith]
      cases ha : applyFrameWith dm strict fs inst f with
      | error e => rfl
      | ok i2 =>
          simp only
          exact ih F2 i2

theorem applyFrames_unknownFrames
    (dm : List FieldDescriptor → Bytes → Except Err MessageInstance)
    (strict : Bool) (fs : List FieldDescriptor) :
    ∀ (ufr : List Frame) (inst : MessageInstance),
      (∀ fr ∈ ufr, findFd fs fr.number = none) →
      applyFramesWith dm strict fs inst ufr =
        .ok ⟨inst.fields, inst.unknown ++ ufr.map (fun fr => fr.raw)⟩ := by
  intro ufr
  induction ufr with
  | nil => intro inst _; simp [applyFramesWith]
  | cons fr rest ih =>
      intro inst h
      unfold applyFramesWith
      have happ : applyFrameWith dm strict fs inst fr =
          .ok ⟨inst.fields, inst.unknown ++ [fr.raw]⟩ := by
        unfold applyFrameWith
        rw [h fr (by simp)]
      rw [happ]
      simp only
      rw [ih ⟨inst.fields, inst.unknown ++ [fr.raw]⟩
        (fun fr2 hfr2 => h fr2 (by simp [hfr2]))]
      simp

/-- Unknown chunks that pass the well-formedness check read back as frames
whose raw bytes are the chunks themselves and whose numbers the schema does
not know. -/
theorem unknownOK_frames (fs : List FieldDescriptor) :
    ∀ (chunks : List (List Nat)), unknownOK fs chunks = true →
      ∃ ufr : List Frame, List.Forall₂ SelfFrame chunks ufr ∧
        ufr.map (fun fr => fr.raw) = chunks ∧
        ∀ fr ∈ ufr, findFd fs fr.number = none := by
  intro chunks
  induction chunks with
  | nil => intro _; exact ⟨[], List.Forall₂.nil, rfl, by simp⟩
  | cons c rest ih =>
      intro h
      simp only [unknownOK, List.all_cons, Bool.and_eq_true] at h
      obtain ⟨hc, hrest⟩ := h
      obtain ⟨ufr, hf2, hmap, hnone⟩ := ih hrest
      cases hrf : readFrame c with
      | error e => rw [hrf] at hc; simp at hc
      | ok p =>
          obtain ⟨fr, used⟩ := p
          rw [hrf] at hc
          simp only [Bool.and_eq_true, beq_iff_eq, Option.isNone_iff_eq_none] at hc
          obtain ⟨hused, hnum⟩ := hc
          have hcons := readFrame_consumed c fr used hrf
          have hraw : fr.raw = c := by
            rw [hcons.2.2, hused, List.take_length]
          have hcne : c ≠ [] := by
            intro h0
            subst h0
            simp at hcons
            omega
          refine ⟨fr :: ufr, ?_, ?_, ?_⟩
          · exact List.Forall₂.cons ⟨hcne, by rw [hused] at hrf; exact hrf⟩ hf2
          · simp [hraw, hmap]
          · intro fr2 hfr2
            rcases List.mem_cons.mp hfr2 with h1 | h1
            · subst h1; exact hnum
            · exact hnone fr2 h1

/-! ## Structure of encoder output -/

theorem encodeEntryWith_structure (ev : FieldType → Value → Except Err Bytes)
    (fd : FieldDescriptor) :
    ∀ (vs : List Value) (bs : Bytes), encodeEntryWith ev fd vs = .ok bs →
      ∃ css : List Bytes,
        List.Forall₂ (fun v c => ∃ pl, ev fd.ftype v = .ok pl ∧
          c = encode_varint (fd.number * 8 + wireOf fd.ftype) ++ pl) vs css ∧
        bs = css.flatten := by
  intro vs
  induction vs with
  | nil =>
      intro bs h
      simp only [encodeEntryWith] at h
      exact ⟨[], List.Forall₂.nil, by simpa using h.symm⟩
  | cons v rest ih =>
      intro bs h
      unfold encodeEntryWith at h
      cases hv : ev fd.ftype v with
      | error e => rw [hv] at h; simp at h
      | ok pl =>
          rw [hv] at h
          simp only at h
          cases hr : encodeEntryWith ev fd rest with
          | error e => rw [hr] at h; simp at h
          | ok out2 =>
              rw [hr] at h
              obtain ⟨css, hf2, hflat⟩ := ih out2 hr
              refine ⟨(encode_varint (fd.number * 8 + wireOf fd.ftype) ++ pl) :: css,
                List.Forall₂.cons ⟨pl, hv, rfl⟩ hf2, ?_⟩
              have hbs : encode_varint (fd.number * 8 + wireOf fd.ftype) ++ pl ++ out2
                  = bs := by simpa using h
              rw [← hbs, hflat]
              simp

theorem encodeGroupsWith_structure (ev : FieldType → Value → Except Err Bytes) :
    ∀ (gs : List FieldDescriptor) (inst : MessageInstance) (out : Bytes),
      encodeGroupsWith ev gs inst = .ok out →
      ∃ bss : List Bytes,
        List.Forall₂ (fun fd bs =>
          encodeEntryWith ev fd ((lookupEntry inst.fields fd.number).getD []) = .ok bs)
          gs bss ∧
        out = bss.flatten ++ inst.unknown.flatten := by
  intro gs
  induction gs with
  | nil =>
      intro inst out h
      simp only [encodeGroupsWith] at h
      exact ⟨[], List.Forall₂.nil, by simpa using h.symm⟩
  | cons fd rest ih =>
      intro inst out h
      unfold encodeGroupsWith at h
      cases hv : encodeEntryWith ev fd ((lookupEntry inst.fields fd.number).getD []) with
      | error e => rw [hv] at h; simp at h
      | ok head =>
          rw [hv] at h
          simp only at h
          cases hr : encodeGroupsWith ev rest inst with
          | error e => rw [hr] at h; simp at h
          | ok tail =>
              rw [hr] at h
              obtain ⟨bss, hf2, hflat⟩ := ih inst tail hr
              refine ⟨head :: bss, List.Forall₂.cons hv hf2, ?_⟩
              have hout : head ++ tail = out := by simpa using h
              rw [← hout, hflat]
              simp

theorem wireOf_lt (t : FieldType) : wireOf t < 8 := by
  cases t <;> simp [wireOf]

/-- A well-typed value that the encoder serializes to payload bytes parses
back from the front of any buffer as a single frame carrying the matching
wire value. -/
theorem frameParse (d : Nat) (n : Nat) (t : FieldType) (v : Value) (pl rest : Bytes)
    (hnum : n < 2 ^ 29) (hwt : wtValue d t v = true)
    (henc : encodeValue d t v = .ok pl) (hpl : pl.length < 2 ^ 64) :
    ∃ w, readFrame ((encode_varint (n * 8 + wireOf t) ++ pl) ++ rest) =
        .ok (⟨n, w, encode_varint (n * 8 + wireOf t) ++ pl⟩,
          (encode_varint (n * 8 + wireOf t) ++ pl).length) ∧
      wireTypeOfW w = wireOf t ∧ WireMatches d t v w := by
  have hw8 := wireOf_lt t
  have htag : n * 8 + wireOf t < 2 ^ 70 := by
    have h29 : (2 : Nat) ^ 29 * 8 + 8 < 2 ^ 70 := by norm_num
    omega
  cases t
  case tint32 =>
      cases v <;> simp only [encodeValue, Except.ok.injEq, reduceCtorEq] at henc
      case vint nn =>
        subst henc
        simp only [wtValue, decide_eq_true_eq] at hwt
        have hz : zigzag nn < 2 ^ 64 := zigzag_lt nn (by omega) (by omega)
        refine ⟨.wvarint (zigzag nn), ?_, rfl, rfl⟩
        have hb := readBody_varint (zigzag nn) rest (by omega)
        have := readFrame_build n 0 (encode_varint (zigzag nn)) rest _ (by omega)
          (by omega) hb
        simpa [wireOf] using this
  case tint64 =>
      cases v <;> simp only [encodeValue, Except.ok.injEq, reduceCtorEq] at henc
      case vint nn =>
        subst henc
        simp only [wtValue, decide_eq_true_eq] at hwt
        have hz : zigzag nn < 2 ^ 64 := zigzag_lt nn (by omega) (by omega)
        refine ⟨.wvarint (zigzag nn), ?_, rfl, rfl⟩
        have hb := readBody_varint (zigzag nn) rest (by omega)
        have := readFrame_build n 0 (encode_varint (zigzag nn)) rest _ (by omega)
          (by omega) hb
        simpa [wireOf] using this
  case tuint32 =>
      cases v <;> simp only [encodeValue, Except.ok.injEq, reduceCtorEq] at henc
      case vuint nn =>
        subst henc
        simp only [wtValue, decide_eq_true_eq] at hwt
        refine ⟨.wvarint nn, ?_, rfl, rfl⟩
        have hb := readBody_varint nn rest (by omega)
        have := readFrame_build n 0 (encode_varint nn) rest _ (by omega) (by omega) hb
        simpa [wireOf] using this
  case tuint64 =>
      cases v <;> simp only [encodeValue, Except.ok.injEq, reduceCtorEq] at henc
      case vuint nn =>
        subst henc
        simp only [wtValue, decide_eq_true_eq] at hwt
        refine ⟨.wvarint nn, ?_, rfl, rfl⟩
        have hb := readBody_varint nn rest (by omega)
        have := readFrame_build n 0 (encode_varint nn) rest _ (by omega) (by omega) hb
        simpa [wireOf] using this
  case tbool =>
      cases v <;> simp only [encodeValue, Except.ok.injEq, reduceCtorEq] at henc
      case vbool b =>
        subst henc
        refine ⟨.wvarint (if b then 1 else 0), ?_, rfl, rfl⟩
        have hb := readBody_varint (if b then 1 else 0) rest (by cases b <;> norm_num)
        have := readFrame_build n 0 (encode_varint (if b then 1 else 0)) rest _
          (by omega) (by omega) hb
        simpa [wireOf] using this
  case tenum vals =>
      cases v <;> simp only [encodeValue, Except.ok.injEq, reduceCtorEq] at henc
      case venum nn =>
        subst henc
        simp only [wtValue, decide_eq_true_eq] at hwt
        refine ⟨.wvarint nn, ?_, rfl, rfl⟩
        have hb := readBody_varint nn rest (by omega)
        have := readFrame_build n 0 (encode_varint nn) rest _ (by omega) (by omega) hb
        simpa [wireOf] using this
  case tfloat =>
      cases v <;> simp only [encodeValue, Except.ok.injEq, reduceCtorEq] at henc
      case vf32 nn =>
        subst henc
        simp only [wtValue, decide_eq_true_eq] at hwt
        refine ⟨.w32 nn, ?_, rfl, rfl⟩
        have hb : readBody 5 (toLE 4 nn ++ rest) = .ok (.w32 nn, (toLE 4 nn).length) := by
          rw [toLE_length]
          exact readBody_fix32 nn rest hwt
        have := readFrame_build n 5 (toLE 4 nn) rest (.w32 nn) (by omega) (by omega) hb
        simpa [wireOf] using this
  case tdouble =>
      cases v <;> simp only [encodeValue, Except.ok.injEq, reduceCtorEq] at henc
      case vf64 nn =>
        subst henc
        simp only [wtValue, decide_eq_true_eq] at hwt
        refine ⟨.w64 nn, ?_, rfl, rfl⟩
        have hb : readBody 1 (toLE 8 nn ++ rest) = .ok (.w64 nn, (toLE 8 nn).length) := by
          rw [toLE_length]
          exact readBody_fix64 nn rest hwt
        have := readFrame_build n 1 (toLE 8 nn) rest (.w64 nn) (by omega) (by omega) hb
        simpa [wireOf] using this
  case tstring =>
      cases v <;> simp only [encodeValue, Except.ok.injEq, reduceCtorEq] at henc
      case vstr bs =>
        subst henc
        have hbs : bs.length < 2 ^ 70 := by
          have : bs.length ≤ (encode_varint bs.length ++ bs).length := by simp
          have h70 : (2 : Nat) ^ 64 < 2 ^ 70 := by norm_num
          omega
        refine ⟨.wlen bs, ?_, rfl, rfl⟩
        have hb : readBody 2 ((encode_varint bs.length ++ bs) ++ rest) =
            .ok (.wlen bs, (encode_varint bs.length ++ bs).length) := by
          rw [List.length_append]
          exact readBody_len bs rest hbs
        have := readFrame_build n 2 (encode_varint bs.length ++ bs) rest (.wlen bs)
          (by omega) (by omega) hb
        simpa [wireOf] using this
  case tbytes =>
      cases v <;> simp only [encodeValue, Except.ok.injEq, reduceCtorEq] at henc
      case vbytes bs =>
        subst henc
        have hbs : bs.length < 2 ^ 70 := by
          have : bs.length ≤ (encode_varint bs.length ++ bs).length := by simp
          have h70 : (2 : Nat) ^ 64 < 2 ^ 70 := by norm_num
          omega
        refine ⟨.wlen bs, ?_, rfl, rfl⟩
        have hb : readBody 2 ((encode_varint bs.length ++ bs) ++ rest) =
            .ok (.wlen bs, (encode_varint bs.length ++ bs).length) := by
          rw [List.length_append]
          exact readBody_len bs rest hbs
        have := readFrame_build n 2 (encode_varint bs.length ++ bs) rest (.wlen bs)
          (by omega) (by omega) hb
        simpa [wireOf] using this
  case tmsg innerFs =>
      cases d with
      | zero => cases v <;> simp only [encodeValue, reduceCtorEq] at henc
      | succ d0 =>
          cases v <;> simp only [encodeValue, reduceCtorEq] at henc
          case vmsg f u =>
            cases hg : encodeGroupsWith (fun t v => encodeValue d0 t v)
                (sortFields innerFs) ⟨f, u⟩ with
            | error e => rw [hg] at henc; simp at henc
            | ok body =>
                rw [hg] at henc
                have hpl2 : encode_varint body.length ++ body = pl := by simpa using henc
                subst hpl2
                have hbs : body.length < 2 ^ 70 := by
                  have : body.length ≤ (encode_varint body.length ++ body).length := by simp
                  have h70 : (2 : Nat) ^ 64 < 2 ^ 70 := by norm_num
                  omega
                refine ⟨.wlen body, ?_, rfl, ⟨d0, body, rfl, rfl, hg⟩⟩
                have hb : readBody 2 ((encode_varint body.length ++ body) ++ rest) =
                    .ok (.wlen body, (encode_varint body.length ++ body).length) := by
                  rw [List.length_append]
                  exact readBody_len body rest hbs
                have := readFrame_build n 2 (encode_varint body.length ++ body) rest
                  (.wlen body) (by omega) (by omega) hb
                simpa [wireOf] using this

/-- Decoding the wire value the encoder produced for a well-typed value
succeeds and yields an observationally equal value; nested message bodies
round-trip by the induction hypothesis RT. -/
theorem decodeWire_of_matches (d : Nat) (strict : Bool)
    (hRT : ∀ d0, d = d0 + 1 → RT d0)
    (t : FieldType) (v : Value) (w : WireVal)
    (hwt : wtValue d t v = true)
    (hvt : validTypeWith (fun fs2 => validS d fs2) t = true)
    (hm : WireMatches d t v w)
    (hwlen : ∀ bs, w = .wlen bs → bs.length < 2 ^ 64) :
    ∃ v2, decodeWireWith (fun fs2 bs => decodeMsg d strict fs2 bs) t w = .ok v2 ∧
      obsEqValue d t v v2 = true := by
  cases t
  case tint32 =>
      cases v <;> simp only [WireMatches] at hm
      case vint nn =>
        subst hm
        refine ⟨.vint (un_zigzag (zigzag nn)), rfl, ?_⟩
        simp only [wtValue, decide_eq_true_eq] at hwt
        rw [un_zigzag_zigzag nn (by omega) (by omega)]
        simp [obsEqValue, scalarEqV]
  case tint64 =>
      cases v <;> simp only [WireMatches] at hm
      case vint nn =>
        subst hm
        refine ⟨.vint (un_zigzag (zigzag nn)), rfl, ?_⟩
        simp only [wtValue, decide_eq_true_eq] at hwt
        rw [un_zigzag_zigzag nn (by omega) (by omega)]
        simp [obsEqValue, scalarEqV]
  case tuint32 =>
      cases v <;> simp only [WireMatches] at hm
      case vuint nn =>
        subst hm
        exact ⟨.vuint nn, rfl, by simp [obsEqValue, scalarEqV]⟩
  case tuint64 =>
      cases v <;> simp only [WireMatches] at hm
      case vuint nn =>
        subst hm
        exact ⟨.vuint nn, rfl, by simp [obsEqValue, scalarEqV]⟩
  case tbool =>
      cases v <;> simp only [WireMatches] at hm
      case vbool b =>
        subst hm
        refine ⟨.vbool ((if b then 1 else 0) != 0), rfl, ?_⟩
        cases b <;> simp [obsEqValue, scalarEqV]
  case tenum vals =>
      cases v <;> simp only [WireMatches] at hm
      case venum nn =>
        subst hm
        exact ⟨.venum nn, rfl, by simp [obsEqValue, scalarEqV]⟩
  case tfloat =>
      cases v <;> simp only [WireMatches] at hm
      case vf32 nn =>
        subst hm
        exact ⟨.vf32 nn, rfl, by simp [obsEqValue, scalarEqV]⟩
  case tdouble =>
      cases v <;> simp only [WireMatches] at hm
      case vf64 nn =>
        subst hm
        exact ⟨.vf64 nn, rfl, by simp [obsEqValue, scalarEqV]⟩
  case tstring =>
      cases v <;> simp only [WireMatches] at hm
      case vstr bs =>
        subst hm
        exact ⟨.vstr bs, rfl, by simp [obsEqValue, scalarEqV]⟩
  case tbytes =>
      cases v <;> simp only [WireMatches] at hm
      case vbytes bs =>
        subst hm
        exact ⟨.vbytes bs, rfl, by simp [obsEqValue, scalarEqV]⟩
  case tmsg innerFs =>
      cases v <;> simp only [WireMatches] at hm
      case vmsg f u =>
        obtain ⟨d0, body, hd, hw, hbody⟩ := hm
        subst hd
        subst hw
        simp only [wtValue] at hwt
        simp only [validTypeWith] at hvt
        have hw0 : wtMsg d0 innerFs ⟨f, u⟩ = true := by
          simp only [wtMsg]
          exact hwt
        obtain ⟨inner2, hdec, hobs, hunk⟩ :=
          hRT d0 rfl strict innerFs ⟨f, u⟩ body hvt hw0 hbody (hwlen body rfl)
        refine ⟨.vmsg inner2.fields inner2.unknown, ?_, ?_⟩
        · simp only [decodeWireWith]
          rw [hdec]
        · simp only [obsEqValue, Bool.and_eq_true]
          constructor
          · unfold obsEqMsg at hobs
            exact hobs
          · rw [hunk]
            simp

theorem readBody_wlen_le (wt : Nat) (rest : Bytes) (w : WireVal) (c2 : Nat)
    (h : readBody wt rest = .ok (w, c2)) :
    ∀ bs2, w = .wlen bs2 → bs2.length ≤ rest.length := by
  unfold readBody at h
  split at h
  · cases h2 : dvAux 10 rest with
    | error e => rw [h2] at h; simp at h
    | ok q =>
        obtain ⟨v, k2⟩ := q
        rw [h2] at h
        simp only [Except.ok.injEq, Prod.mk.injEq] at h
        intro bs2 heq
        rw [← h.1] at heq
        simp at heq
  · split at h
    · simp at h
    · simp only [Except.ok.injEq, Prod.mk.injEq] at h
      intro bs2 heq
      rw [← h.1] at heq
      simp at heq
  · cases h2 : dvAux 10 rest with
    | error e => rw [h2] at h; simp at h
    | ok q =>
        obtain ⟨m, k2⟩ := q
        rw [h2] at h
        simp only at h
        split at h
        · simp at h
        · simp only [Except.ok.injEq, Prod.mk.injEq] at h
          intro bs2 heq
          rw [← h.1] at heq
          simp only [WireVal.wlen.injEq] at heq
          subst heq
          calc ((rest.drop k2).take m).length ≤ (rest.drop k2).length := by
                rw [List.length_take]
                exact min_le_right _ _
          _ ≤ rest.length := by simp
  · split at h
    · simp at h
    · simp only [Except.ok.injEq, Prod.mk.injEq] at h
      intro bs2 heq
      rw [← h.1] at heq
      simp at heq
  · simp at h

theorem readFrame_wlen_le (buf : Bytes) (fr : Frame) (c : Nat)
    (h : readFrame buf = .ok (fr, c)) :
    ∀ bs2, fr.wire = .wlen bs2 → bs2.length ≤ buf.length := by
  unfold readFrame at h
  cases h1 : dvAux 10 buf with
  | error e => rw [h1] at h; simp at h
  | ok p =>
      obtain ⟨t, k⟩ := p
      rw [h1] at h
      simp only at h
      cases h2 : readBody (t % 8) (buf.drop k) with
      | error e => rw [h2] at h; simp at h
      | ok q =>
          obtain ⟨w, c2⟩ := q
          rw [h2] at h
          simp only [Except.ok.injEq, Prod.mk.injEq] at h
          intro bs2 heq
          rw [← h.1] at heq
          simp only at heq
          have := readBody_wlen_le (t % 8) (buf.drop k) w c2 h2 bs2 heq
          calc bs2.length ≤ (buf.drop k).length := this
          _ ≤ buf.length := by simp

/-- The frames of one encoded field entry. -/
theorem entryParse (d : Nat) (strict : Bool) (hRT : ∀ d0, d = d0 + 1 → RT d0)
    (fd : FieldDescriptor) (hnum : fd.number < 2 ^ 29)
    (hvt : validTypeWith (fun fs2 => validS d fs2) fd.ftype = true) :
    ∀ (vs : List Value) (bs : Bytes),
      encodeEntryWith (fun t v => encodeValue d t v) fd vs = .ok bs →
      (∀ v ∈ vs, wtValue d fd.ftype v = true) →
      bs.length < 2 ^ 64 →
      ∃ (css : List Bytes) (Fi : List Frame),
        List.Forall₂ SelfFrame css Fi ∧
        bs = css.flatten ∧
        List.Forall₂ (FrameDec d strict fd) vs Fi ∧
        (∀ fr ∈ Fi, fr.number = fd.number) ∧
        Fi.map (fun fr => fr.raw) = css := by
  intro vs bs henc hwt hlen
  obtain ⟨css, hf2, hflat⟩ :=
    encodeEntryWith_structure (fun t v => encodeValue d t v) fd vs bs henc
  subst hflat
  clear henc
  induction hf2 with
  | nil => exact ⟨[], [], List.Forall₂.nil, rfl, List.Forall₂.nil, by simp, rfl⟩
  | cons hvc htail ih =>
      rename_i v c vsT csT
      obtain ⟨css2, Fi2, hsf2, hfl2, hfd2, hnums2, hraw2⟩ :=
        ih (fun v2 hv2 => hwt v2 (by simp [hv2]))
          (by
            simp only [List.flatten_cons, List.length_append] at hlen
            omega)
      obtain ⟨pl, hpl, hc⟩ := hvc
      have hple : pl.length < 2 ^ 64 := by
        have h1 : c.length ≤ (c :: csT).flatten.length :=
          len_le_flatten _ c (by simp)
        have h2 : pl.length ≤ c.length := by
          rw [hc]
          simp
        omega
      obtain ⟨w, hrf, hwto, hmatch⟩ :=
        frameParse d fd.number fd.ftype v pl [] hnum (hwt v (by simp)) hpl hple
      rw [List.append_nil] at hrf
      have hcne : c ≠ [] := by
        rw [hc]
        intro h0
        rcases List.append_eq_nil.mp h0 with ⟨h1, _⟩
        exact encode_varint_nonempty _ h1
      have hfr : readFrame c =
          .ok (⟨fd.number, w, c⟩, c.length) := by
        rw [hc]
        exact hrf
      have hwlen2 : ∀ bs2, w = .wlen bs2 → bs2.length < 2 ^ 64 := by
        intro bs2 heq
        have := readFrame_wlen_le c ⟨fd.number, w, c⟩ c.length hfr bs2 heq
        have h1 : c.length ≤ (c :: csT).flatten.length :=
          len_le_flatten _ c (by simp)
        omega
      obtain ⟨v2, hdw, hobs⟩ :=
        decodeWire_of_matches d strict hRT fd.ftype v w (hwt v (by simp)) hvt
          hmatch hwlen2
      refine ⟨c :: css2, ⟨fd.number, w, c⟩ :: Fi2, ?_, ?_, ?_, ?_, ?_⟩
      · exact List.Forall₂.cons ⟨hcne, hfr⟩ hsf2
      · simp only [List.flatten_cons]
        rw [← hfl2]
      · exact List.Forall₂.cons ⟨rfl, hwto, v2, hdw, hobs⟩ hfd2
      · intro fr hfr2
        rcases List.mem_cons.mp hfr2 with h1 | h1
        · subst h1; rfl
        · exact hnums2 fr h1
      · simp [hraw2]

/-- The frames of the whole known-field section of the encoder's output, with
the parse of the output reduced to the parse of whatever follows. -/
theorem groupsParse (d : Nat) (strict : Bool) (hRT : ∀ d0, d = d0 + 1 → RT d0)
    (inst : MessageInstance) :
    ∀ (gs : List FieldDescriptor) (bss : List Bytes),
      List.Forall₂ (fun fd bs =>
        encodeEntryWith (fun t v => encodeValue d t v) fd
          ((lookupEntry inst.fields fd.number).getD []) = .ok bs) gs bss →
      (∀ fd ∈ gs, fd.number < 2 ^ 29 ∧
        validTypeWith (fun fs2 => validS d fs2) fd.ftype = true ∧
        ∀ v ∈ (lookupEntry inst.fields fd.number).getD [],
          wtValue d fd.ftype v = true) →
      (∀ bs ∈ bss, bs.length < 2 ^ 64) →
      ∃ Fss : List (List Frame),
        (∀ T, readFrames (bss.flatten ++ T) =
          (readFrames T).map (fun rest => Fss.flatten ++ rest)) ∧
        List.Forall₂ (fun fd Fi =>
          List.Forall₂ (FrameDec d strict fd)
            ((lookupEntry inst.fields fd.number).getD []) Fi) gs Fss ∧
        List.Forall₂ (fun fd Fi => ∀ fr ∈ Fi, fr.number = fd.number) gs Fss ∧
        (Fss.flatten.map (fun fr => fr.raw)).flatten = bss.flatten := by
  intro gs bss h
  induction h with
  | nil =>
      intro _ _
      refine ⟨[], ?_, List.Forall₂.nil, List.Forall₂.nil, by simp⟩
      intro T
      simp only [List.flatten_nil, List.nil_append]
      cases hT : readFrames T <;> rfl
  | cons hhead htail ih =>
      intro hfds hlens
      rename_i fd bs gs2 bss2
      obtain ⟨hnum, hvt, hwt⟩ := hfds fd (by simp)
      obtain ⟨css, Fi, hsf, hflat, hfd1, hnum1, hraw1⟩ :=
        entryParse d strict hRT fd hnum hvt
          ((lookupEntry inst.fields fd.number).getD []) bs hhead hwt
          (hlens bs (by simp))
      obtain ⟨Fss2, hread2, hfd2, hnum2, hraw2⟩ :=
        ih (fun fd2 h2 => hfds fd2 (by simp [h2]))
          (fun bs2 h2 => hlens bs2 (by simp [h2]))
      refine ⟨Fi :: Fss2, ?_, List.Forall₂.cons hfd1 hfd2,
        List.Forall₂.cons hnum1 hnum2, ?_⟩
      · intro T
        have hassoc : (bs :: bss2).flatten ++ T =
            css.flatten ++ (bss2.flatten ++ T) := by
          simp only [List.flatten_cons, List.append_assoc]
          rw [hflat]
        rw [hassoc, readFrames_flatten_append css Fi hsf (bss2.flatten ++ T),
          hread2 T]
        cases readFrames T with
        | error e => rfl
        | ok fsT =>
            simp only [Except.map, List.flatten_cons, List.append_assoc]
      · simp only [List.flatten_cons, List.map_append, List.flatten_append]
        rw [hraw1, hraw2, ← hflat]

theorem applyGroup_rep (d : Nat) (strict : Bool) (fs : List FieldDescriptor)
    (fd : FieldDescriptor) (hfind : findFd fs fd.number = some fd)
    (hrep : (fd.card == Card.repeated) = true) :
    ∀ (vs : List Value) (Fi : List Frame),
      List.Forall₂ (FrameDec d strict fd) vs Fi →
      ∀ (inst : MessageInstance),
      ∃ inst2 dvs,
        applyFramesWith (fun fs2 bs => decodeMsg d strict fs2 bs) strict fs inst Fi =
          .ok inst2 ∧
        inst2.unknown = inst.unknown ∧
        (∀ m, m ≠ fd.number →
          lookupEntry inst2.fields m = lookupEntry inst.fields m) ∧
        obsEqListWith (fun x y => obsEqValue d fd.ftype x y) vs dvs = true ∧
        (lookupEntry inst2.fields fd.number).getD [] =
          (lookupEntry inst.fields fd.number).getD [] ++ dvs := by
  intro vs Fi h
  induction h with
  | nil =>
      intro inst
      exact ⟨inst, [], rfl, rfl, fun _ _ => rfl, rfl, by simp⟩
  | cons hvf htail ih =>
      rename_i v fr vsT FiT
      intro inst
      obtain ⟨hn, hw, v2, hdw, hobs⟩ := hvf
      have happ : applyFrameWith (fun fs2 bs => decodeMsg d strict fs2 bs) strict fs
          inst fr =
          .ok ⟨setEntry inst.fields fd.number
                (((lookupEntry inst.fields fd.number).getD []) ++ [v2]),
              inst.unknown⟩ := by
        unfold applyFrameWith
        rw [hn, hfind]
        simp only
        rw [if_pos hw, hdw]
        simp only
        rw [hrep]
        simp only [if_true]
      obtain ⟨inst2, dvs, hap2, hu2, hoth2, hobs2, hent2⟩ :=
        ih ⟨setEntry inst.fields fd.number
              (((lookupEntry inst.fields fd.number).getD []) ++ [v2]),
            inst.unknown⟩
      refine ⟨inst2, v2 :: dvs, ?_, hu2, ?_, ?_, ?_⟩
      · unfold applyFramesWith
        rw [happ]
        simp only
        exact hap2
      · intro m hm
        rw [hoth2 m hm]
        exact lookupEntry_setEntry_other inst.fields fd.number m _ hm
      · simp only [obsEqListWith, Bool.and_eq_true]
        exact ⟨hobs, hobs2⟩
      · rw [hent2]
        simp only [lookupEntry_setEntry_self, Option.getD_some]
        simp [List.append_assoc]

theorem applyGroup_single (d : Nat) (strict : Bool) (fs : List FieldDescriptor)
    (fd : FieldDescriptor) (hfind : findFd fs fd.number = some fd)
    (hnrep : (fd.card == Card.repeated) = false) :
    ∀ (vs : List Value) (Fi : List Frame),
      List.Forall₂ (FrameDec d strict fd) vs Fi →
      vs.length ≤ 1 →
      ∀ (inst : MessageInstance),
      (lookupEntry inst.fields fd.number).getD [] = [] →
      ∃ inst2 dvs,
        applyFramesWith (fun fs2 bs => decodeMsg d strict fs2 bs) strict fs inst Fi =
          .ok inst2 ∧
        inst2.unknown = inst.unknown ∧
        (∀ m, m ≠ fd.number →
          lookupEntry inst2.fields m = lookupEntry inst.fields m) ∧
        obsEqListWith (fun x y => obsEqValue d fd.ftype x y) vs dvs = true ∧
        (lookupEntry inst2.fields fd.number).getD [] =
          (lookupEntry inst.fields fd.number).getD [] ++ dvs := by
  intro vs Fi h
  cases h with
  | nil =>
      intro _ inst _
      exact ⟨inst, [], rfl, rfl, fun _ _ => rfl, rfl, by simp⟩
  | cons hvf htail =>
      rename_i v fr vsT FiT
      intro hlen inst h0
      have hT : vsT = [] := by
        cases vsT with
        | nil => rfl
        | cons a b => simp at hlen
      subst hT
      cases htail
      obtain ⟨hn, hw, v2, hdw, hobs⟩ := hvf
      have happ : applyFrameWith (fun fs2 bs => decodeMsg d strict fs2 bs) strict fs
          inst fr = .ok ⟨setEntry inst.fields fd.number [v2], inst.unknown⟩ := by
        unfold applyFrameWith
        rw [hn, hfind]
        simp only
        rw [if_pos hw, hdw]
        simp only
        rw [hnrep]
        simp only [Bool.false_eq_true, if_false]
      refine ⟨⟨setEntry inst.fields fd.number [v2], inst.unknown⟩, [v2], ?_, rfl,
        ?_, ?_, ?_⟩
      · unfold applyFramesWith
        rw [happ]
        simp only
        rfl
      · intro m hm
        exact lookupEntry_setEntry_other inst.fields fd.number m _ hm
      · simp only [obsEqListWith, Bool.and_eq_true]
        exact ⟨hobs, trivial⟩
      · rw [h0]
        simp [lookupEntry_setEntry_self]

theorem applyGroup (d : Nat) (strict : Bool) (fs : List FieldDescriptor)
    (fd : FieldDescriptor) (hfind : findFd fs fd.number = some fd)
    (vs : List Value) (Fi : List Frame)
    (h : List.Forall₂ (FrameDec d strict fd) vs Fi)
    (hcase : (fd.card == Card.repeated) = true ∨ vs.length ≤ 1)
    (inst : MessageInstance)
    (h0 : (lookupEntry inst.fields fd.number).getD [] = []) :
    ∃ inst2 dvs,
      applyFramesWith (fun fs2 bs => decodeMsg d strict fs2 bs) strict fs inst Fi =
        .ok inst2 ∧
      inst2.unknown = inst.unknown ∧
      (∀ m, m ≠ fd.number →
        lookupEntry inst2.fields m = lookupEntry inst.fields m) ∧
      obsEqListWith (fun x y => obsEqValue d fd.ftype x y) vs dvs = true ∧
      (lookupEntry inst2.fields fd.number).getD [] =
        (lookupEntry inst.fields fd.number).getD [] ++ dvs := by
  cases hrep : (fd.card == Card.repeated) with
  | true => exact applyGroup_rep d strict fs fd hfind hrep vs Fi h inst
  | false =>
      rcases hcase with h1 | h1
      · rw [hrep] at h1; exact absurd h1 (by simp)
      · exact applyGroup_single d strict fs fd hfind hrep vs Fi h h1 inst h0

/-- Applying the frame groups of the sorted known fields to an accumulator
that starts empty on those fields produces entries observationally equal to
the source entries, field by field. -/
theorem groupsApply (d : Nat) (strict : Bool) (fs : List FieldDescriptor)
    (inst : MessageInstance) :
    ∀ (gs : List FieldDescriptor) (Fss : List (List Frame)),
      List.Forall₂ (fun fd Fi => List.Forall₂ (FrameDec d strict fd)
        ((lookupEntry inst.fields fd.number).getD []) Fi) gs Fss →
      (∀ fd ∈ gs, findFd fs fd.number = some fd ∧
        ((fd.card == Card.repeated) = true ∨
          ((lookupEntry inst.fields fd.number).getD []).length ≤ 1)) →
      distinctNumbers gs = true →
      ∀ acc : MessageInstance,
      (∀ fd ∈ gs, (lookupEntry acc.fields fd.number).getD [] = []) →
      ∃ acc2,
        applyFramesWith (fun fs2 bs => decodeMsg d strict fs2 bs) strict fs acc
          Fss.flatten = .ok acc2 ∧
        acc2.unknown = acc.unknown ∧
        (∀ m, (∀ fd ∈ gs, m ≠ fd.number) →
          lookupEntry acc2.fields m = lookupEntry acc.fields m) ∧
        ∀ fd ∈ gs, obsEqListWith (fun x y => obsEqValue d fd.ftype x y)
          ((lookupEntry inst.fields fd.number).getD [])
          ((lookupEntry acc2.fields fd.number).getD []) = true := by
  intro gs Fss h
  induction h with
  | nil =>
      intro _ _ acc _
      refine ⟨acc, rfl, rfl, fun _ _ => rfl, ?_⟩
      intro fd hm
      simp at hm
  | cons hhead htail ih =>
      rename_i fd Fi gsT FssT
      intro hfds hdn acc hacc
      obtain ⟨hfind, hcase⟩ := hfds fd (by simp)
      have hdn2 : distinctNumbers gsT = true ∧
          ∀ fd2 ∈ gsT, fd2.number ≠ fd.number := by
        simp only [distinctNumbers, Bool.and_eq_true, List.all_eq_true] at hdn
        refine ⟨hdn.2, fun fd2 h2 => ?_⟩
        have := hdn.1 fd2 h2
        simpa using this
      obtain ⟨acc1, dvs, hap1, hu1, hoth1, hobs1, hent1⟩ :=
        applyGroup d strict fs fd hfind _ Fi hhead hcase acc (hacc fd (by simp))
      have hacc1 : ∀ fd2 ∈ gsT, (lookupEntry acc1.fields fd2.number).getD [] = [] := by
        intro fd2 h2
        rw [hoth1 fd2.number (hdn2.2 fd2 h2)]
        exact hacc fd2 (by simp [h2])
      obtain ⟨acc2, hap2, hu2, hoth2, hobs2⟩ :=
        ih (fun fd2 h2 => hfds fd2 (by simp [h2])) hdn2.1 acc1 hacc1
      refine ⟨acc2, ?_, hu2.trans hu1, ?_, ?_⟩
      · simp only [List.flatten_cons]
        rw [applyFramesWith_append _ strict fs Fi FssT.flatten acc, hap1]
        exact hap2
      · intro m hm
        rw [hoth2 m (fun fd2 h2 => hm fd2 (by simp [h2]))]
        exact hoth1 m (hm fd (by simp))
      · intro fd2 h2
        rcases List.mem_cons.mp h2 with h3 | h3
        · subst h3
          have he : (lookupEntry acc2.fields fd2.number).getD [] = dvs := by
            rw [hoth2 fd2.number (fun fd3 h3 => (hdn2.2 fd3 h3).symm)]
            rw [hent1, hacc fd2 (by simp)]
            simp
          rw [he]
          exact hobs1
        · exact hobs2 fd2 h3

theorem distinctNumbers_iff (fs : List FieldDescriptor) :
    distinctNumbers fs = true ↔ (fs.map (fun fd => fd.number)).Nodup := by
  induction fs with
  | nil => simp [distinctNumbers]
  | cons fd rest ih =>
      simp only [distinctNumbers, Bool.and_eq_true, List.all_eq_true, List.map_cons,
        List.nodup_cons, ih, List.mem_map]
      constructor
      · rintro ⟨h1, h2⟩
        refine ⟨?_, h2⟩
        rintro ⟨fd2, hm, he⟩
        have := h1 fd2 hm
        simp only [bne_iff_ne, ne_eq] at this
        exact this he
      · rintro ⟨h1, h2⟩
        refine ⟨?_, h2⟩
        intro fd2 hm
        simp only [bne_iff_ne, ne_eq]
        intro he
        exact h1 ⟨fd2, hm, he⟩

theorem distinctNumbers_sortFields (fs : List FieldDescriptor)
    (h : distinctNumbers fs = true) : distinctNumbers (sortFields fs) = true := by
  rw [distinctNumbers_iff] at h ⊢
  exact (((List.perm_insertionSort fdLe fs).map (fun fd => fd.number)).nodup_iff).mpr h

/-- One step of the round-trip induction: the round-trip property at depth d
follows from the round-trip property at all smaller nesting depths. -/
theorem RT_step : ∀ d, (∀ d0, d = d0 + 1 → RT d0) → RT d := by
  intro d hRT strict fs inst out hvS hwt henc hlen
  obtain ⟨hdn, hfds⟩ := validS_parts d fs hvS
  have hwt2 := hwt
  simp only [wtMsg, Bool.and_eq_true] at hwt2
  obtain ⟨⟨hent, hdk⟩, hunk⟩ := hwt2
  unfold encodeFields at henc
  obtain ⟨bss, hf2, hout⟩ :=
    encodeGroupsWith_structure _ (sortFields fs) inst out henc
  have hdns : distinctNumbers (sortFields fs) = true :=
    distinctNumbers_sortFields fs hdn
  have hmemS : ∀ fd ∈ sortFields fs, fd ∈ fs :=
    fun fd h => (List.mem_insertionSort fdLe).mp h
  have hvals : ∀ fd ∈ fs, ∀ v ∈ (lookupEntry inst.fields fd.number).getD [],
      wtValue d fd.ftype v = true := by
    intro fd hm v hv
    cases hl : lookupEntry inst.fields fd.number with
    | none => rw [hl] at hv; simp at hv
    | some vs =>
        rw [hl] at hv
        simp only [Option.getD_some] at hv
        obtain ⟨fd2, hfind, _, hwtv⟩ :=
          wtEntriesWith_lookup (fun t v => wtValue d t v) fs inst.fields hent
            fd.number vs (lookupEntry_mem inst.fields fd.number vs hl)
        have heq : fd2 = fd := by
          rw [findFd_unique fs hdn fd hm] at hfind
          simpa using hfind.symm
        subst heq
        exact hwtv v hv
  have hfds2 : ∀ fd ∈ sortFields fs, fd.number < 2 ^ 29 ∧
      validTypeWith (fun fs2 => validS d fs2) fd.ftype = true ∧
      ∀ v ∈ (lookupEntry inst.fields fd.number).getD [],
        wtValue d fd.ftype v = true := by
    intro fd h
    have hm := hmemS fd h
    exact ⟨(hfds fd hm).2.1, (hfds fd hm).2.2, hvals fd hm⟩
  have hlens : ∀ bs ∈ bss, bs.length < 2 ^ 64 := by
    intro bs h
    have h1 : bs.length ≤ bss.flatten.length := len_le_flatten bss bs h
    have h2 : bss.flatten.length ≤ out.length := by
      rw [hout]
      simp
    omega
  obtain ⟨Fss, hread, hfd2, hnum2, hraw2⟩ :=
    groupsParse d strict hRT inst (sortFields fs) bss hf2 hfds2 hlens
  obtain ⟨ufr, hsfu, hmapu, hnoneu⟩ := unknownOK_frames fs inst.unknown hunk
  have hru : readFrames inst.unknown.flatten = .ok ufr := by
    have h1 := readFrames_flatten_append inst.unknown ufr hsfu []
    rw [List.append_nil] at h1
    rw [h1, readFrames_nil]
    simp [Except.map]
  have hrall : readFrames out = .ok (Fss.flatten ++ ufr) := by
    rw [hout, hread inst.unknown.flatten, hru]
    simp [Except.map]
  have hfds3 : ∀ fd ∈ sortFields fs, findFd fs fd.number = some fd ∧
      ((fd.card == Card.repeated) = true ∨
        ((lookupEntry inst.fields fd.number).getD []).length ≤ 1) := by
    intro fd h
    have hm := hmemS fd h
    refine ⟨findFd_unique fs hdn fd hm, ?_⟩
    cases hl : lookupEntry inst.fields fd.number with
    | none => right; simp
    | some vs =>
        obtain ⟨fd2, hfind, hcard, _⟩ :=
          wtEntriesWith_lookup (fun t v => wtValue d t v) fs inst.fields hent
            fd.number vs (lookupEntry_mem inst.fields fd.number vs hl)
        have heq : fd2 = fd := by
          rw [findFd_unique fs hdn fd hm] at hfind
          simpa using hfind.symm
        subst heq
        simp only [Option.getD_some]
        cases hr : (fd2.card == Card.repeated) with
        | true => left; rfl
        | false =>
            right
            rw [hr] at hcard
            simpa using hcard
  have haccE : ∀ fd ∈ sortFields fs,
      (lookupEntry emptyInstance.fields fd.number).getD [] = [] := by
    intro _ _
    rfl
  obtain ⟨acc2, hap, hu, hoth, hobsS⟩ :=
    groupsApply d strict fs inst (sortFields fs) Fss hfd2 hfds3 hdns
      emptyInstance haccE
  have hap2 : applyFramesWith (fun fs2 bs => decodeMsg d strict fs2 bs) strict fs
      emptyInstance (Fss.flatten ++ ufr) =
      .ok ⟨acc2.fields, acc2.unknown ++ ufr.map (fun fr => fr.raw)⟩ := by
    rw [applyFramesWith_append _ strict fs Fss.flatten ufr emptyInstance, hap]
    exact applyFrames_unknownFrames _ strict fs ufr acc2 hnoneu
  refine ⟨⟨acc2.fields, acc2.unknown ++ ufr.map (fun fr => fr.raw)⟩, ?_, ?_, ?_⟩
  · simp only [decodeMsg]
    rw [hrall]
    simp only
    exact hap2
  · unfold obsEqMsg obsEqMsgWith
    rw [List.all_eq_true]
    intro fd hm
    have hmS : fd ∈ sortFields fs := (List.mem_insertionSort fdLe).mpr hm
    exact hobsS fd hmS
  · rw [hu, hmapu]
    rfl

/-- The round-trip property holds at every recursion depth. -/
theorem RT_holds : ∀ d, RT d := by
  intro d
  induction d with
  | zero =>
      exact RT_step 0 (fun d0 h => absurd h (by omega))
  | succ d ih =>
      refine RT_step (d + 1) (fun d0 h => ?_)
      have he : d0 = d := by omega
      subst he
      exact ih

/-! ## Claim C2: unknown-field preservation -/

/-- Frame application preserves the relative order of unknown-field raw
chunks: the resulting unknown list extends the incoming one with exactly the
raw bytes of the frames whose numbers the schema does not know, in frame
order. -/
theorem applyFramesWith_unknown
    (dm : List FieldDescriptor → Bytes → Except Err MessageInstance)
    (strict : Bool) (fs : List FieldDescriptor) :
    ∀ (frames : List Frame) (inst inst2 : MessageInstance),
      applyFramesWith dm strict fs inst frames = .ok inst2 →
      (∀ f ∈ frames, findFd fs f.number = none ∨
        ∃ fd, findFd fs f.number = some fd ∧ wireTypeOfW f.wire = wireOf fd.ftype) →
      inst2.unknown = inst.unknown ++
        (frames.filter (fun f => (findFd fs f.number).isNone)).map (fun f => f.raw) := by
  intro frames
  induction frames with
  | nil =>
      intro inst inst2 h _
      simp only [applyFramesWith] at h
      have : inst = inst2 := by simpa using h
      subst this
      simp
  | cons f rest ih =>
      intro inst inst2 h hmatch
      unfold applyFramesWith at h
      cases hf : findFd fs f.number with
      | none =>
          have happ : applyFrameWith dm strict fs inst f =
              .ok ⟨inst.fields, inst.unknown ++ [f.raw]⟩ := by
            unfold applyFrameWith
            rw [hf]
          rw [happ] at h
          simp only at h
          have := ih ⟨inst.fields, inst.unknown ++ [f.raw]⟩ inst2 h
            (fun f2 hf2 => hmatch f2 (by simp [hf2]))
          rw [this]
          simp only [List.filter_cons]
          rw [hf]
          simp
      | some fd =>
          have hwire : wireTypeOfW f.wire = wireOf fd.ftype := by
            rcases hmatch f (by simp) with h1 | ⟨fd2, hfd2, hw2⟩
            · rw [hf] at h1; exact absurd h1 (by simp)
            · rw [hf] at hfd2
              have : fd2 = fd := by simpa using hfd2.symm
              subst this
              exact hw2
          cases hdw : decodeWireWith dm fd.ftype f.wire with
          | error e =>
              have happ : applyFrameWith dm strict fs inst f = .error e := by
                unfold applyFrameWith
                rw [hf]
                simp only
                rw [if_pos hwire, hdw]
              rw [happ] at h
              simp at h
          | ok v =>
              by_cases hrep : (fd.card == Card.repeated) = true
              · have happ : applyFrameWith dm strict fs inst f =
                    .ok ⟨setEntry inst.fields fd.number
                          (((lookupEntry inst.fields fd.number).getD []) ++ [v]),
                        inst.unknown⟩ := by
                  unfold applyFrameWith
                  rw [hf]
                  simp only
                  rw [if_pos hwire, hdw]
                  simp only [hrep, if_true]
                rw [happ] at h
                simp only at h
                have := ih _ inst2 h (fun f2 hf2 => hmatch f2 (by simp [hf2]))
                rw [this]
                simp only [List.filter_cons]
                rw [hf]
                simp
              · have happ : applyFrameWith dm strict fs inst f =
                    .ok ⟨setEntry inst.fields fd.number [v], inst.unknown⟩ := by
                  unfold applyFrameWith
                  rw [hf]
                  simp only
                  rw [if_pos hwire, hdw]
                  simp only [hrep]
                  simp
                rw [happ] at h
                simp only at h
                have := ih _ inst2 h (fun f2 hf2 => hmatch f2 (by simp [hf2]))
                rw [this]
                simp only [List.filter_cons]
                rw [hf]
                simp

/-- The encoder's output always ends with the verbatim concatenation of the
instance's preserved unknown chunks. -/
theorem encodeGroupsWith_unknown_suffix (ev : FieldType → Value → Except Err Bytes) :
    ∀ (gs : List FieldDescriptor) (inst : MessageInstance) (out : Bytes),
      encodeGroupsWith ev gs inst = .ok out →
      ∃ known, out = known ++ inst.unknown.flatten := by
  intro gs
  induction gs with
  | nil =>
      intro inst out h
      simp only [encodeGroupsWith] at h
      exact ⟨[], by simpa using h.symm⟩
  | cons fd rest ih =>
      intro inst out h
      unfold encodeGroupsWith at h
      cases hv : encodeEntryWith ev fd ((lookupEntry inst.fields fd.number).getD []) with
      | error e => rw [hv] at h; simp at h
      | ok head =>
          rw [hv] at h
          simp only at h
          cases hr : encodeGroupsWith ev rest inst with
          | error e => rw [hr] at h; simp at h
          | ok tail =>
              rw [hr] at h
              obtain ⟨known, hknown⟩ := ih inst tail hr
              have hout : head ++ tail = out := by simpa using h
              exact ⟨head ++ known, by rw [← hout, hknown, List.append_assoc]⟩

/-- C2: decoding a buffer whose frames are either well-formed known fields or
fields with numbers absent from the schema, and then re-encoding the decoded
instance, re-emits the unknown fields byte-identical and in their original
relative order, as the final segment of the output. -/
theorem unknown_fields_roundtrip (d : Nat) (strict : Bool)
    (fs : List FieldDescriptor) (buf : Bytes) (frames : List Frame)
    (inst : MessageInstance) (out : Bytes)
    (hfr : readFrames buf = .ok frames)
    (hmatch : ∀ f ∈ frames, findFd fs f.number = none ∨
      ∃ fd, findFd fs f.number = some fd ∧ wireTypeOfW f.wire = wireOf fd.ftype)
    (hdec : decodeMsg (d + 1) strict fs buf = .ok inst)
    (henc : encodeMsg d fs inst = .ok out) :
    ∃ known, out = known ++
      ((frames.filter (fun f => (findFd fs f.number).isNone)).map
        (fun f => f.raw)).flatten := by
  simp only [decodeMsg] at hdec
  rw [hfr] at hdec
  simp only at hdec
  have hunk := applyFramesWith_unknown _ strict fs frames emptyInstance inst hdec hmatch
  simp only [emptyInstance, List.nil_append] at hunk
  unfold encodeMsg at henc
  cases hi : isInit d fs inst with
  | error e => rw [hi] at henc; simp at henc
  | ok b =>
      rw [hi] at henc
      cases b
      · simp at henc
      · simp only [if_true] at henc
        unfold encodeFields at henc
        obtain ⟨known, hknown⟩ :=
          encodeGroupsWith_unknown_suffix _ (sortFields fs) inst out henc
        rw [hunk] at hknown
        exact ⟨known, hknown⟩

/-- Witness for C2: the buffer holding the single unknown field number 99
(varint tag 0x98 0x06, value 1) survives a decode followed by an encode
byte-identically. -/
theorem unknown_fields_roundtrip_witness :
    ∃ known, [152, 6, 1] = known ++
      (([(⟨99, .wvarint 1, [152, 6, 1]⟩ : Frame)].filter
          (fun f => (findFd demoFields f.number).isNone)).map
        (fun f => f.raw)).flatten := by
  apply unknown_fields_roundtrip 1 false demoFields [152, 6, 1]
    [⟨99, .wvarint 1, [152, 6, 1]⟩] ⟨[], [[152, 6, 1]]⟩ [152, 6, 1] rfl
  · intro f hf
    simp only [List.mem_singleton] at hf
    subst hf
    left
    rfl
  · rfl
  · rfl

/-- Witness for C6 on the notebook schema: the person with name and id unset
fails with UninitializedMessage; the fully populated person encodes
successfully. -/
theorem encode_uninitialized_witness :
    encodeMsg 5 personFields ⟨[(3, [.vstr emailBytes])], []⟩ =
        .error .UninitializedMessage ∧
      ∃ out, encodeMsg 5 personFields personInst = .ok out := by
  constructor
  · exact (encode_uninitialized 5 personFields ⟨[(3, [.vstr emailBytes])], []⟩).1 rfl
  · exact (encode_uninitialized 5 personFields personInst).2.2 rfl (by decide) (by decide)

/-! ## Claim C1: encode/decode round trip -/

/-- C1: for every valid schema and well-typed instance for which encode
succeeds, decoding the encoder's output against the same schema succeeds and
yields an instance that is field-wise observationally equal to the original
on all fields known to the schema, with unknown chunks passed through
byte-identical. -/
theorem encode_decode_roundtrip (d : Nat) (strict : Bool)
    (fs : List FieldDescriptor) (inst : MessageInstance) (out : Bytes)
    (hvS : validS (d + 1) fs = true) (hwt : wtMsg d fs inst = true)
    (henc : encodeMsg d fs inst = .ok out) (hlen : out.length < 2 ^ 64) :
    ∃ inst2, decodeMsg (d + 1) strict fs out = .ok inst2 ∧
      obsEqMsg d fs inst inst2 = true ∧ inst2.unknown = inst.unknown := by
  unfold encodeMsg at henc
  cases hi : isInit d fs inst with
  | error e => rw [hi] at henc; simp at henc
  | ok b =>
      rw [hi] at henc
      simp only at henc
      cases b with
      | false => simp at henc
      | true =>
          simp only [if_true] at henc
          exact RT_holds d strict fs inst out hvS hwt henc hlen

theorem encode_decode_roundtrip_witness :
    validS 6 personFields = true ∧ wtMsg 5 personFields personInst = true ∧
    encodeMsg 5 personFields personInst = .ok personWire ∧
    personWire.length < 2 ^ 64 ∧
    ∃ inst2, decodeMsg 6 false personFields personWire = .ok inst2 ∧
      obsEqMsg 5 personFields personInst inst2 = true ∧
      inst2.unknown = personInst.unknown :=
  ⟨by decide, by decide, by rfl, by decide,
    encode_decode_roundtrip 5 false personFields personInst personWire
      (by decide) (by decide) (by rfl) (by decide)⟩

/-! ## Claim C7: canonical emission order -/

theorem forall₂_and (R S : FieldDescriptor → List Frame → Prop) :
    ∀ (l1 : List FieldDescriptor) (l2 : List (List Frame)),
      List.Forall₂ R l1 l2 → List.Forall₂ S l1 l2 →
      List.Forall₂ (fun a b => R a b ∧ S a b) l1 l2 := by
  intro l1 l2 h1
  induction h1 with
  | nil => intro _; exact .nil
  | cons hab htail ih =>
      intro h2
      cases h2 with
      | cons hab2 htail2 => exact .cons ⟨hab, hab2⟩ (ih htail2)

theorem pairwise_const_le (n : Nat) :
    ∀ (l : List Frame), (∀ fr ∈ l, fr.number = n) →
      List.Pairwise (fun a b => a ≤ b) (l.map (fun fr => fr.number)) := by
  intro l
  induction l with
  | nil => intro _; simp
  | cons fr rest ih =>
      intro h
      simp only [List.map_cons]
      refine List.Pairwise.cons ?_ (ih (fun f hf => h f (by simp [hf])))
      intro b hb
      simp only [List.mem_map] at hb
      obtain ⟨fr2, hm, he⟩ := hb
      rw [← he, h fr (by simp), h fr2 (by simp [hm])]

theorem flatten_numbers_mem :
    ∀ (gs : List FieldDescriptor) (Fss : List (List Frame)),
      List.Forall₂ (fun fd Fi => ∀ fr ∈ Fi, fr.number = fd.number) gs Fss →
      ∀ b ∈ Fss.flatten.map (fun fr => fr.number), ∃ fd2 ∈ gs, b = fd2.number := by
  intro gs Fss h
  induction h with
  | nil => intro b hb; simp at hb
  | cons hfd htail ih =>
      rename_i fd Fi gsT FssT
      intro b hb
      simp only [List.flatten_cons, List.map_append, List.mem_append] at hb
      rcases hb with h1 | h1
      · simp only [List.mem_map] at h1
        obtain ⟨fr, hm, he⟩ := h1
        exact ⟨fd, by simp, by rw [← he, hfd fr hm]⟩
      · obtain ⟨fd2, hm2, he2⟩ := ih b h1
        exact ⟨fd2, by simp [hm2], he2⟩

theorem pairwise_flatten_numbers :
    ∀ (gs : List FieldDescriptor) (Fss : List (List Frame)),
      List.Forall₂ (fun fd Fi => ∀ fr ∈ Fi, fr.number = fd.number) gs Fss →
      List.Pairwise fdLe gs →
      List.Pairwise (fun a b => a ≤ b) (Fss.flatten.map (fun fr => fr.number)) := by
  intro gs Fss h
  induction h with
  | nil => intro _; simp
  | cons hfd htail ih =>
      rename_i fd Fi gsT FssT
      intro hp
      have hp2 := List.Pairwise.of_cons hp
      have hhead : ∀ fd2 ∈ gsT, fdLe fd fd2 :=
        fun fd2 h2 => List.rel_of_pairwise_cons hp h2
      simp only [List.flatten_cons, List.map_append]
      rw [List.pairwise_append]
      refine ⟨pairwise_const_le fd.number Fi hfd, ih hp2, ?_⟩
      intro a ha b hb
      simp only [List.mem_map] at ha
      obtain ⟨fr, hm, he⟩ := ha
      obtain ⟨fd2, hm2, he2⟩ := flatten_numbers_mem gsT FssT htail b hb
      rw [← he, hfd fr hm, he2]
      exact hhead fd2 hm2

/-- C7: the encoder's output parses as the known fields grouped per
descriptor in ascending field-number order — one tag+value frame per element
of each (possibly repeated) field, not packed — followed by the preserved
unknown chunks verbatim in their original relative order; being a pure
function of the instance, the output is deterministic. -/
theorem encode_canonical_order (d : Nat) (fs : List FieldDescriptor)
    (inst : MessageInstance) (out : Bytes)
    (hvS : validS (d + 1) fs = true) (hwt : wtMsg d fs inst = true)
    (henc : encodeFields d fs inst = .ok out) (hlen : out.length < 2 ^ 64) :
    ∃ (Fss : List (List Frame)) (ufr : List Frame),
      readFrames out = .ok (Fss.flatten ++ ufr) ∧
      List.Forall₂ (fun fd Fi =>
        (∀ fr ∈ Fi, fr.number = fd.number) ∧
        Fi.length = ((lookupEntry inst.fields fd.number).getD []).length)
        (sortFields fs) Fss ∧
      List.Pairwise (fun a b => a ≤ b)
        (Fss.flatten.map (fun fr => fr.number)) ∧
      ufr.map (fun fr => fr.raw) = inst.unknown ∧
      out = (Fss.flatten.map (fun fr => fr.raw)).flatten ++
        inst.unknown.flatten := by
  obtain ⟨hdn, hfds⟩ := validS_parts d fs hvS
  simp only [wtMsg, Bool.and_eq_true] at hwt
  obtain ⟨⟨hent, hdk⟩, hunk⟩ := hwt
  unfold encodeFields at henc
  obtain ⟨bss, hf2, hout⟩ :=
    encodeGroupsWith_structure _ (sortFields fs) inst out henc
  have hmemS : ∀ fd ∈ sortFields fs, fd ∈ fs :=
    fun fd h => (List.mem_insertionSort fdLe).mp h
  have hfds2 : ∀ fd ∈ sortFields fs, fd.number < 2 ^ 29 ∧
      validTypeWith (fun fs2 => validS d fs2) fd.ftype = true ∧
      ∀ v ∈ (lookupEntry inst.fields fd.number).getD [],
        wtValue d fd.ftype v = true := by
    intro fd h
    have hm := hmemS fd h
    refine ⟨(hfds fd hm).2.1, (hfds fd hm).2.2, ?_⟩
    intro v hv
    cases hl : lookupEntry inst.fields fd.number with
    | none => rw [hl] at hv; simp at hv
    | some vs =>
        rw [hl] at hv
        simp only [Option.getD_some] at hv
        obtain ⟨fd2, hfind, _, hwtv⟩ :=
          wtEntriesWith_lookup (fun t v => wtValue d t v) fs inst.fields hent
            fd.number vs (lookupEntry_mem inst.fields fd.number vs hl)
        have heq : fd2 = fd := by
          rw [findFd_unique fs hdn fd hm] at hfind
          simpa using hfind.symm
        subst heq
        exact hwtv v hv
  have hlens : ∀ bs ∈ bss, bs.length < 2 ^ 64 := by
    intro bs h
    have h1 : bs.length ≤ bss.flatten.length := len_le_flatten bss bs h
    have h2 : bss.flatten.length ≤ out.length := by
      rw [hout]
      simp
    omega
  obtain ⟨Fss, hread, hfd2, hnum2, hraw2⟩ :=
    groupsParse d false (fun d0 _ => RT_holds d0) inst (sortFields fs) bss
      hf2 hfds2 hlens
  obtain ⟨ufr, hsfu, hmapu, hnoneu⟩ := unknownOK_frames fs inst.unknown hunk
  have hru : readFrames inst.unknown.flatten = .ok ufr := by
    have h1 := readFrames_flatten_append inst.unknown ufr hsfu []
    rw [List.append_nil] at h1
    rw [h1, readFrames_nil]
    simp [Except.map]
  refine ⟨Fss, ufr, ?_, ?_, ?_, hmapu, ?_⟩
  · rw [hout, hread inst.unknown.flatten, hru]
    simp [Except.map]
  · refine forall₂_and _ _ (sortFields fs) Fss hnum2 ?_
    exact List.Forall₂.imp (fun fd Fi h => (List.Forall₂.length_eq h).symm) hfd2
  · exact pairwise_flatten_numbers (sortFields fs) Fss hnum2
      (List.sorted_insertionSort fdLe fs)
  · rw [hout, hraw2]

theorem encode_canonical_order_witness :
    validS 6 personFields = true ∧ wtMsg 5 personFields personInst = true ∧
    encodeFields 5 personFields personInst = .ok personWire ∧
    personWire.length < 2 ^ 64 ∧
    ∃ (Fss : List (List Frame)) (ufr : List Frame),
      readFrames personWire = .ok (Fss.flatten ++ ufr) ∧
      List.Forall₂ (fun fd Fi =>
        (∀ fr ∈ Fi, fr.number = fd.number) ∧
        Fi.length = ((lookupEntry personInst.fields fd.number).getD []).length)
        (sortFields personFields) Fss ∧
      List.Pairwise (fun a b => a ≤ b)
        (Fss.flatten.map (fun fr => fr.number)) ∧
      ufr.map (fun fr => fr.raw) = personInst.unknown ∧
      personWire = (Fss.flatten.map (fun fr => fr.raw)).flatten ++
        personInst.unknown.flatten :=
  ⟨by decide, by decide, by rfl, by decide,
    encode_canonical_order 5 personFields personInst personWire
      (by decide) (by decide) (by rfl) (by decide)⟩

end PB

